import Mathlib

/-!
Verification of the `bimap` repository: a bidirectional map built on two
intrusive unbalanced binary search trees that share dual-role entry nodes
(`src/bimap.h`, `src/intrusive_tree.h`, `src/intrusive_tree.cpp`).

Shallow embedding:

* Entries (`node_t`) are identified by numeric ids.  The pair
  `std::pair<left_t, right_t>` stored in a node is modelled by an
  association list `store : List (Nat × Nat × Nat)` mapping an id to its
  `(left key, right key)` pair; both key types are concretized to `Nat`
  (the default-constructed value of §`at_or_default` is `0`).
* Each per-side intrusive tree (`intr_tree`) is a binary tree of entry
  ids; the key of a node is obtained by projecting the shared store on
  the tree's side, exactly as `intr_tree::get_key` projects the shared
  `node_t` through its tag.  The sentinel/header is implicit: the
  sentinel's left child is the root (the modelled `Tree`), the sentinel
  itself is the `end` position (modelled `none` for bimap iterators).
* The pointer-level linkage of `base_tree_element`
  (`src/intrusive_tree.cpp`) is modelled separately and literally in
  namespace `Ptr` by a heap of parent/left/right optional addresses; it
  settles the claims about `unlink`.
* Stateful member functions become functions `Bimap → ... → Bimap × result`.
-/

namespace BimapModel

/-- The two sides of the bimap (`left_tag` / `right_tag` in `bimap.h`). -/
inductive Side where
  | l : Side
  | r : Side
deriving DecidableEq

/-- `Other<Side>` from `bimap.h`. -/
def Side.other : Side → Side
  | .l => .r
  | .r => .l

/-- A per-side intrusive search tree: the shape of one tree of entry ids.
The sentinel header (`intr_tree::root`) is implicit; a `Tree` value is the
subtree hanging from the sentinel's left child. -/
inductive Tree where
  | nil : Tree
  | node : Tree → Nat → Tree → Tree
deriving DecidableEq

/-- In-order traversal of the entry ids of a tree, i.e. the sequence an
iterator walk from `begin()` to `end()` visits. -/
def inorder : Tree → List Nat
  | .nil => []
  | .node l x r => inorder l ++ x :: inorder r

/-- Result of `intr_tree::insert`, which returns an `intr_tree::iterator`:
either the default-constructed iterator (`ptr == nullptr`), the sentinel
(`end()`), or an iterator at an element. -/
inductive InsRes where
  | nullIt : InsRes
  | endIt : InsRes
  | pos : Nat → InsRes
deriving DecidableEq

/-- `intr_tree::as_iterator`: the iterator sitting at a given element. -/
def as_iterator (id : Nat) : InsRes := .pos id

/-- `intr_tree::find` (src/intrusive_tree.h:149-164): standard BST descent
comparing the searched key against each visited node's projected key;
`none` models returning `end()`. -/
def findT (f : Nat → Nat) (k : Nat) : Tree → Option Nat
  | .nil => none
  | .node l x r =>
    if f x < k then findT f k r
    else if k < f x then findT f k l
    else some x

/-- The descent loop of `intr_tree::insert` (src/intrusive_tree.h:174-192),
entered when the tree is not empty: descend comparing keys; attach as the
missing child of the last visited node (the `nil` case of the recursion)
and report the iterator at the new element; on an equivalent key report
`end()` and leave the tree unchanged. -/
def insertLoop (f : Nat → Nat) (x : Nat) : Tree → Tree × InsRes
  | .nil => (.node .nil x .nil, .pos x)
  | .node l y r =>
    if f y < f x then
      let p := insertLoop f x r
      (.node l y p.1, p.2)
    else if f x < f y then
      let p := insertLoop f x l
      (.node p.1 y r, p.2)
    else (.node l y r, .endIt)

/-- `intr_tree::insert` (src/intrusive_tree.h:166-193).  When the tree is
empty the element is linked as the sentinel's left child and the function
returns `iterator(cur)` where `cur == nullptr`, i.e. the null iterator
`InsRes.nullIt`, not an iterator at the element. -/
def insertT (f : Nat → Nat) (x : Nat) (t : Tree) : Tree × InsRes :=
  match t with
  | .nil => (.node .nil x .nil, .nullIt)
  | .node l y r => insertLoop f x (.node l y r)

/-- Unlinking the minimum of a non-empty subtree: the leftmost node has no
left child, so `base_tree_element::unlink` replaces it in its parent's
slot by its right child.  Returns the removed id and the remaining tree. -/
def delMin : Tree → Option (Nat × Tree)
  | .nil => none
  | .node .nil x r => some (x, r)
  | .node (.node ll lx lr) x r =>
    match delMin (.node ll lx lr) with
    | some (m, l') => some (m, .node l' x r)
    | none => none

/-- Removal of the node carrying id `x` from a tree, mirroring
`base_tree_element::unlink` (src/intrusive_tree.cpp:113-129): a leaf or
one-child node is replaced in its parent slot by its only child; a
two-children node is replaced by its in-order successor (the minimum of
the right subtree), which first unlinks from its own position and then
adopts the node's subtrees.  `eraseNode l r` performs the removal of a
node whose subtrees are `l` and `r`. -/
def eraseNode : Tree → Tree → Tree
  | .nil, r => r
  | .node ll lx lr, .nil => .node ll lx lr
  | .node ll lx lr, .node rl rx rr =>
    match delMin (.node rl rx rr) with
    | some (m, r') => .node (.node ll lx lr) m r'
    | none => .node ll lx lr

/-- Removal of the node carrying id `x` from a tree: locate the node (in
the pointer original the iterator already points at it) and unlink it via
`eraseNode`. -/
def eraseId (x : Nat) : Tree → Tree
  | .nil => .nil
  | .node l y r =>
    if y = x then eraseNode l r
    else .node (eraseId x l) y (eraseId x r)

/-- Position following `id` in a traversal sequence: the result of `++it`
(`base_tree_element::next`), `none` meaning the sentinel / `end()`. -/
def succAfter : List Nat → Nat → Option Nat
  | [], _ => none
  | x :: xs, id => if x = id then xs.head? else succAfter xs id

/-- Projection from the shared store to a node's key on one side
(`intr_tree::get_key` through the side's tag; `node_t::key<Side>`). -/
def keyOfS (store : List (Nat × Nat × Nat)) (s : Side) (id : Nat) : Nat :=
  match store.lookup id with
  | some p => match s with | .l => p.1 | .r => p.2
  | none => 0

/-- Update of one side of a stored pair (`node_t::key<Side>() = key`). -/
def setPair : Side → Nat → Nat × Nat → Nat × Nat
  | .l, k, p => (k, p.2)
  | .r, k, p => (p.1, k)

/-- The bidirectional map state (`struct bimap`): the two intrusive trees,
the owned entries, `size_`, and the next fresh entry id (allocation). -/
structure Bimap where
  ltree : Tree
  rtree : Tree
  store : List (Nat × Nat × Nat)
  size_ : Nat
  nextId : Nat
deriving DecidableEq

/-- `bimap::tree<Side>()`. -/
def Bimap.tr (m : Bimap) : Side → Tree
  | .l => m.ltree
  | .r => m.rtree

/-- The key projection a side's tree uses on the current store. -/
def Bimap.keyF (m : Bimap) (s : Side) : Nat → Nat := keyOfS m.store s

/-- A default-constructed `bimap`: both trees empty, `size_ == 0`. -/
def emptyBimap : Bimap := ⟨.nil, .nil, [], 0, 0⟩

/-- `bimap::empty()` = `left_tree.empty()` (the sentinel has no children). -/
def emptyB (m : Bimap) : Bool :=
  match m.ltree with
  | .nil => true
  | .node _ _ _ => false

/-- `bimap::find<Side>` — `none` models the `end()` iterator. -/
def findS (m : Bimap) (s : Side) (k : Nat) : Option Nat :=
  findT (m.keyF s) k (m.tr s)

/-- `base_iterator::flip` (src/bimap.h:84-93): `end()` flips to the other
side's `end()`; an iterator at an entry flips to the iterator at the same
entry in the other tree (`as_iterator(*it)`). -/
def flipIt : Option Nat → Option Nat
  | none => none
  | some id => some id

/-- Dereference of a side's iterator: the entry's key on that side. -/
def derefS (m : Bimap) (s : Side) : Option Nat → Option Nat
  | none => none
  | some id => some (m.keyF s id)

/-- Argument order of `insert_no_check(left, right)` as built inside
`at_or_default`: on the left side `(key, other)`, on the right `(other, key)`. -/
def mkPair : Side → Nat → Nat → Nat × Nat
  | .l, k, o => (k, o)
  | .r, k, o => (o, k)

/-- `bimap::insert_no_check` (src/bimap.h:403-412): increments `size_`,
allocates the dual-role node, inserts it into both trees, and returns the
left iterator built by `as_iterator` on the new node (it does not use the
iterators returned by `intr_tree::insert`). -/
def insert_no_check (m : Bimap) (lv rv : Nat) : Bimap × Option Nat :=
  let id := m.nextId
  let store' := (id, (lv, rv)) :: m.store
  let lt := (insertT (keyOfS store' .l) id m.ltree).1
  let rt := (insertT (keyOfS store' .r) id m.rtree).1
  (⟨lt, rt, store', m.size_ + 1, id + 1⟩, some id)

/-- `bimap::insert_` (src/bimap.h:393-401): if either key already resolves
via `find`, return `end_left()` (`none`) touching nothing; otherwise defer
to `insert_no_check`. -/
def insertB (m : Bimap) (lv rv : Nat) : Bimap × Option Nat :=
  if (findS m .l lv).isSome || (findS m .r rv).isSome then (m, none)
  else insert_no_check m lv rv

/-- `bimap::erase<Side>(iterator)` (src/bimap.h:341-353): erasing `end()`
is a no-op returning `end()`; otherwise decrement `size_`, remember the
next position on the queried side, and destroy the node, whose destructor
unlinks it from both trees. -/
def eraseIt (m : Bimap) (s : Side) (it : Option Nat) : Bimap × Option Nat :=
  match it with
  | none => (m, none)
  | some id =>
    let nxt := succAfter (inorder (m.tr s)) id
    (⟨eraseId id m.ltree, eraseId id m.rtree,
      m.store.filter (fun e => e.1 != id), m.size_ - 1, m.nextId⟩, nxt)

/-- `bimap::erase<Side>(key)` (src/bimap.h:355-359): find, erase, and then
report `!empty() ? erase_res != end : erase_res == end`. -/
def eraseKey (m : Bimap) (s : Side) (k : Nat) : Bimap × Bool :=
  let p := eraseIt m s (findS m s k)
  (p.1, if emptyB p.1 then p.2 == none else p.2 != none)

/-- `bimap::begin<Side>()`: the minimum of the side's tree, `end()` when
the tree is empty. -/
def beginS (m : Bimap) (s : Side) : Option Nat :=
  (inorder (m.tr s)).head?

/-- `bimap::erase<Side>(first, last)` (src/bimap.h:361-368): repeatedly
erase `first` until `last` is reached.  The C++ loop terminates whenever
it is reachable; the fuel bounds the number of iterations in the model. -/
def eraseRangeF : Nat → Bimap → Side → Option Nat → Option Nat → Bimap × Option Nat
  | 0, m, _, it, _ => (m, it)
  | fuel + 1, m, s, it, last =>
    if it = last then (m, it)
    else
      let p := eraseIt m s it
      eraseRangeF fuel p.1 s p.2 last

/-- `bimap::clear()` (src/bimap.h:438-440): erase the whole left range. -/
def clearB (m : Bimap) : Bimap :=
  (eraseRangeF ((inorder m.ltree).length + 1) m .l (beginS m .l) none).1

/-- `bimap::at<Side>` (src/bimap.h:375-382): find; throw `std::out_of_range`
when absent (modelled `none`); otherwise dereference the flipped iterator,
i.e. the entry's opposite-side value.  The member is `const`: it never
modifies the map. -/
def atS (m : Bimap) (s : Side) (k : Nat) : Option Nat :=
  match findS m s k with
  | none => none
  | some id => some (m.keyF s.other id)

/-- In-place overwrite of one entry's key on one side
(`it_other.it->template key<Side>() = key` in `at_or_default`); the entry
stays linked where it is in both trees. -/
def setKey (m : Bimap) (s : Side) (id k : Nat) : Bimap :=
  { m with store := m.store.map (fun e => if e.1 = id then (e.1, setPair s k e.2) else e) }

/-- `bimap::at_or_default` (src/bimap.h:414-436): if the key is present,
return the opposite value; otherwise look the default-constructed opposite
value (`0`) up on the opposite side: if found, overwrite that entry's key
on the queried side in place and return its opposite value; if not,
insert a fresh `(key, default)` entry via `insert_no_check` and return the
default. -/
def at_or_default (m : Bimap) (s : Side) (k : Nat) : Bimap × Nat :=
  match findS m s k with
  | some id => (m, m.keyF s.other id)
  | none =>
    let defv : Nat := 0
    match findS m s.other defv with
    | some id =>
      let m' := setKey m s id k
      (m', m'.keyF s.other id)
    | none =>
      let pr := mkPair s k defv
      let p := insert_no_check m pr.1 pr.2
      (p.1, (p.1).keyF s.other m.nextId)

/-- `bimap::copy_from` (src/bimap.h:442-447): clear the destination, then
re-insert every pair of the source in left-tree order. -/
def copy_from (dst src : Bimap) : Bimap :=
  (inorder src.ltree).foldl
    (fun acc id => (insertB acc (src.keyF .l id) (src.keyF .r id)).1)
    (clearB dst)

/-- The copy constructor `bimap(bimap const&)` (src/bimap.h:124-128):
fresh trees (only comparators are copied), then `copy_from`. -/
def copyCtor (src : Bimap) : Bimap := copy_from emptyBimap src

/-- The move constructor `bimap(bimap&&)` (src/bimap.h:129-132): the trees
transfer their root linkage (`base_tree_element::move_from` nulls the
source sentinel's children), `size_` is copied — and the moved-from
`size_` is left untouched.  Result: (new map, moved-from map). -/
def moveCtor (src : Bimap) : Bimap × Bimap :=
  (⟨src.ltree, src.rtree, src.store, src.size_, src.nextId⟩,
   ⟨.nil, .nil, [], src.size_, src.nextId⟩)

/-- Move assignment `bimap::operator=(bimap&&)` (src/bimap.h:144-152) for
distinct objects: `clear()` releases the destination's own entries (a pure
deallocation, invisible in the resulting state), the trees are stolen and
`size_` is copied; the source keeps its stale `size_`.
Result: (assigned map, moved-from map). -/
def moveAssign (dst src : Bimap) : Bimap × Bimap :=
  (⟨src.ltree, src.rtree, src.store, src.size_, src.nextId⟩,
   ⟨.nil, .nil, [], src.size_, src.nextId⟩)

/-- Keys of the left tree in traversal order. -/
def lkeys (m : Bimap) : List Nat := (inorder m.ltree).map (m.keyF .l)

/-- Keys of the right tree in traversal order. -/
def rkeys (m : Bimap) : List Nat := (inorder m.rtree).map (m.keyF .r)

/-- Structural well-formedness of a bimap state: both traversals strictly
increasing, both trees thread the same set of entries, every linked entry
is owned by the store, store ids are below the allocation counter, and
`size_` counts the entries. -/
def WF (m : Bimap) : Prop :=
  (lkeys m).Pairwise (· < ·) ∧
  (rkeys m).Pairwise (· < ·) ∧
  (inorder m.ltree).Perm (inorder m.rtree) ∧
  (∀ id ∈ inorder m.ltree, (m.store.lookup id).isSome = true) ∧
  (∀ e ∈ m.store, e.1 < m.nextId) ∧
  m.size_ = (inorder m.ltree).length

instance (m : Bimap) : Decidable (WF m) := by
  unfold WF
  infer_instance

end BimapModel

namespace BimapModel

/-- The binary-search-tree invariant of one side's tree with respect to a
key projection: every id in the left subtree projects below the node's
key, every id in the right subtree above. -/
inductive Ordd (f : Nat → Nat) : Tree → Prop where
  | nil : Ordd f .nil
  | node {l : Tree} {x : Nat} {r : Tree} :
      Ordd f l → Ordd f r →
      (∀ i ∈ inorder l, f i < f x) →
      (∀ i ∈ inorder r, f x < f i) →
      Ordd f (.node l x r)

theorem ordd_iff_pairwise (f : Nat → Nat) (t : Tree) :
    Ordd f t ↔ ((inorder t).map f).Pairwise (· < ·) := by
  constructor
  · intro h
    induction h with
    | nil => simp [inorder]
    | @node l x r _ _ bl br ihl ihr =>
      simp only [inorder, List.map_append, List.map_cons]
      rw [List.pairwise_append]
      refine ⟨ihl, ?_, ?_⟩
      · rw [List.pairwise_cons]
        refine ⟨?_, ihr⟩
        intro b hb
        obtain ⟨i, hi, rfl⟩ := List.mem_map.mp hb
        exact br i hi
      · intro a ha b hb
        obtain ⟨i, hi, rfl⟩ := List.mem_map.mp ha
        rcases List.mem_cons.mp hb with hb | hb
        · exact hb ▸ bl i hi
        · obtain ⟨j, hj, rfl⟩ := List.mem_map.mp hb
          exact lt_trans (bl i hi) (br j hj)
  · intro h
    induction t with
    | nil => exact .nil
    | node l x r ihl ihr =>
      simp only [inorder, List.map_append, List.map_cons, List.pairwise_append,
        List.pairwise_cons] at h
      obtain ⟨hl, ⟨hx, hr⟩, hcross⟩ := h
      refine .node (ihl hl) (ihr hr) ?_ ?_
      · intro i hi
        exact hcross (f i) (List.mem_map_of_mem f hi) (f x) (List.mem_cons_self _ _)
      · intro i hi
        exact hx (f i) (List.mem_map_of_mem f hi)

theorem findT_sound {f : Nat → Nat} {k : Nat} :
    ∀ {t : Tree} {i : Nat}, findT f k t = some i → i ∈ inorder t ∧ f i = k := by
  intro t
  induction t with
  | nil => intro i h; simp [findT] at h
  | node l x r ihl ihr =>
    intro i h
    rw [findT] at h
    split_ifs at h with h1 h2
    · obtain ⟨hm, hk⟩ := ihr h
      exact ⟨by simp [inorder, hm], hk⟩
    · obtain ⟨hm, hk⟩ := ihl h
      exact ⟨by simp [inorder, hm], hk⟩
    · cases h
      exact ⟨by simp [inorder], Nat.le_antisymm (Nat.not_lt.mp h2) (Nat.not_lt.mp h1)⟩

theorem findT_complete {f : Nat → Nat} {k : Nat} {t : Tree} {i : Nat}
    (ho : Ordd f t) (hi : i ∈ inorder t) (hk : f i = k) :
    (findT f k t).isSome = true := by
  induction ho with
  | nil => simp [inorder] at hi
  | @node l x r _ _ bl br ihl ihr =>
    rw [inorder] at hi
    rw [findT]
    rcases List.mem_append.mp hi with h | h
    · have hlt : k < f x := hk ▸ bl i h
      rw [if_neg (by omega), if_pos hlt]
      exact ihl h
    · rcases List.mem_cons.mp h with rfl | h'
      · rw [if_neg (by omega), if_neg (by omega)]
        rfl
      · have hlt : f x < k := hk ▸ br i h'
        rw [if_pos hlt]
        exact ihr h'

/-- Consequence: a failed `find` means no resident key is equivalent. -/
theorem findT_none {f : Nat → Nat} {k : Nat} {t : Tree}
    (ho : Ordd f t) (h : findT f k t = none) :
    ∀ i ∈ inorder t, f i ≠ k := by
  intro i hi hk
  have := findT_complete ho hi hk
  rw [h] at this
  simp at this

theorem insertLoop_spec {f : Nat → Nat} {x : Nat} {t : Tree}
    (ho : Ordd f t) (hfresh : ∀ i ∈ inorder t, f i ≠ f x) :
    Ordd f (insertLoop f x t).1 ∧
    (inorder (insertLoop f x t).1).Perm (x :: inorder t) ∧
    (insertLoop f x t).2 = .pos x := by
  induction ho with
  | nil =>
    refine ⟨.node .nil .nil ?_ ?_, by simp [insertLoop, inorder], rfl⟩ <;>
      simp [inorder]
  | @node l y r hol hor bl br ihl ihr =>
    by_cases h1 : f y < f x
    · have hfr : ∀ i ∈ inorder r, f i ≠ f x := by
        intro i hi
        exact hfresh i (by simp [inorder, hi])
      obtain ⟨ho', hp', hr'⟩ := ihr hfr
      rw [insertLoop, if_pos h1]
      refine ⟨.node hol ho' bl ?_, ?_, hr'⟩
      · intro i hi
        rcases List.mem_cons.mp ((hp'.mem_iff).mp hi) with rfl | hi'
        · exact h1
        · exact br i hi'
      · simp only [inorder]
        have step1 : (inorder l ++ y :: inorder (insertLoop f x r).1).Perm
            (inorder l ++ y :: x :: inorder r) :=
          List.Perm.append_left _ (List.Perm.cons _ hp')
        have step2 : (inorder l ++ y :: x :: inorder r).Perm
            (x :: (inorder l ++ y :: inorder r)) := by
          have h := @List.perm_middle _ x (inorder l ++ [y]) (inorder r)
          simpa using h
        exact step1.trans step2
    · by_cases h2 : f x < f y
      · have hfl : ∀ i ∈ inorder l, f i ≠ f x := by
          intro i hi
          exact hfresh i (by simp [inorder, hi])
        obtain ⟨ho', hp', hl'⟩ := ihl hfl
        rw [insertLoop, if_neg h1, if_pos h2]
        refine ⟨.node ho' hor ?_ br, ?_, hl'⟩
        · intro i hi
          rcases List.mem_cons.mp ((hp'.mem_iff).mp hi) with rfl | hi'
          · exact h2
          · exact bl i hi'
        · simp only [inorder]
          have := List.Perm.append_right (y :: inorder r) hp'
          simpa using this
      · have hyx : f y = f x := Nat.le_antisymm (Nat.not_lt.mp h2) (Nat.not_lt.mp h1)
        have hy : y ∈ inorder (.node l y r) := by
          rw [inorder]
          exact List.mem_append_right _ (List.mem_cons_self _ _)
        exact absurd hyx (hfresh y hy)

theorem insertT_spec {f : Nat → Nat} {x : Nat} {t : Tree}
    (ho : Ordd f t) (hfresh : ∀ i ∈ inorder t, f i ≠ f x) :
    Ordd f (insertT f x t).1 ∧
    (inorder (insertT f x t).1).Perm (x :: inorder t) := by
  cases t with
  | nil =>
    refine ⟨.node .nil .nil ?_ ?_, by simp [insertT, inorder]⟩ <;>
      simp [insertT, inorder]
  | node l y r =>
    obtain ⟨h1, h2, _⟩ := insertLoop_spec ho hfresh
    exact ⟨h1, h2⟩

theorem delMin_spec :
    ∀ (t : Tree), t ≠ .nil →
      ∃ m t', delMin t = some (m, t') ∧ inorder t = m :: inorder t' := by
  intro t
  induction t with
  | nil => intro h; exact absurd rfl h
  | node l x r ihl _ =>
    intro _
    cases l with
    | nil => exact ⟨x, r, rfl, by simp [inorder]⟩
    | node ll lx lr =>
      obtain ⟨m, l', h1, h2⟩ := ihl (by simp)
      refine ⟨m, .node l' x r, ?_, ?_⟩
      · rw [delMin, h1]
      · rw [inorder, h2]
        simp [inorder]

end BimapModel

namespace BimapModel

theorem eraseId_inorder {x : Nat} :
    ∀ {t : Tree}, (inorder t).Nodup →
      inorder (eraseId x t) = (inorder t).erase x := by
  intro t
  induction t with
  | nil => intro _; simp [eraseId, inorder]
  | node l y r ihl ihr =>
    intro hnd
    rw [inorder] at hnd
    obtain ⟨hndl, hndyr, hdisj⟩ := List.nodup_append.mp hnd
    obtain ⟨hynr, hndr⟩ := List.nodup_cons.mp hndyr
    have hynl : y ∉ inorder l := fun h => hdisj h (List.mem_cons_self _ _)
    by_cases hyx : y = x
    · subst hyx
      rw [inorder, List.erase_append_right _ hynl, List.erase_cons_head]
      rw [eraseId, if_pos rfl]
      cases l with
      | nil => simp [eraseNode, inorder]
      | node ll lx lr =>
        cases r with
        | nil => simp [eraseNode, inorder]
        | node rl rx rr =>
          obtain ⟨m, r', h1, h2⟩ := delMin_spec (.node rl rx rr) (by simp)
          rw [eraseNode, h1, inorder, h2]
    · rw [eraseId, if_neg hyx, inorder, inorder]
      by_cases hxl : x ∈ inorder l
      · have hxr : x ∉ inorder r := fun hc =>
          hdisj hxl (List.mem_cons_of_mem _ hc)
        rw [List.erase_append_left _ hxl, ihl hndl,
          ihr hndr, List.erase_of_not_mem hxr]
      · have hycx : ¬ y = x := hyx
        rw [List.erase_append_right _ hxl, ihl hndl, ihr hndr,
          List.erase_of_not_mem hxl, List.erase_cons_tail]
        simp [hycx]

theorem succAfter_mem :
    ∀ {L : List Nat} {id j : Nat}, succAfter L id = some j → j ∈ L := by
  intro L
  induction L with
  | nil => intro id j h; simp [succAfter] at h
  | cons x xs ih =>
    intro id j h
    rw [succAfter] at h
    split_ifs at h with h1
    · exact List.mem_cons_of_mem _ (List.mem_of_mem_head? h)
    · exact List.mem_cons_of_mem _ (ih h)

theorem succAfter_ne :
    ∀ {L : List Nat} {id j : Nat}, L.Nodup → succAfter L id = some j → j ≠ id := by
  intro L
  induction L with
  | nil => intro id j _ h; simp [succAfter] at h
  | cons x xs ih =>
    intro id j hnd h
    obtain ⟨hx, hnd'⟩ := List.nodup_cons.mp hnd
    rw [succAfter] at h
    split_ifs at h with h1
    · subst h1
      intro hji
      exact hx (hji ▸ List.mem_of_mem_head? h)
    · exact ih hnd' h

theorem lookup_cons_ne {st : List (Nat × Nat × Nat)} {i j : Nat} {p : Nat × Nat}
    (h : j ≠ i) : ((i, p) :: st).lookup j = st.lookup j := by
  have hb : (j == i) = false := by
    simp [h]
  simp [List.lookup, hb]

theorem lookup_cons_self {st : List (Nat × Nat × Nat)} {i : Nat} {p : Nat × Nat} :
    ((i, p) :: st).lookup i = some p := by
  simp [List.lookup]

theorem lookup_filter_ne {i j : Nat} :
    ∀ {st : List (Nat × Nat × Nat)}, j ≠ i →
      (st.filter (fun e => e.1 != i)).lookup j = st.lookup j := by
  intro st
  induction st with
  | nil => intro _; rfl
  | cons e es ih =>
    intro h
    obtain ⟨k, p⟩ := e
    rw [List.filter_cons]
    by_cases hki : k = i
    · rw [if_neg (by simp [hki]), ih h,
        lookup_cons_ne (show j ≠ k by rw [hki]; exact h)]
    · rw [if_pos (by simp [hki])]
      by_cases hkj : k = j
      · subst hkj
        rw [lookup_cons_self, lookup_cons_self]
      · rw [lookup_cons_ne (Ne.symm hkj), lookup_cons_ne (Ne.symm hkj), ih h]

theorem lookup_map_set_self {i : Nat} {g : Nat × Nat → Nat × Nat} :
    ∀ {st : List (Nat × Nat × Nat)},
      (st.map (fun e => if e.1 = i then (e.1, g e.2) else e)).lookup i =
        (st.lookup i).map g := by
  intro st
  induction st with
  | nil => rfl
  | cons e es ih =>
    obtain ⟨k, p⟩ := e
    rw [List.map_cons]
    by_cases hki : k = i
    · subst hki
      have hd : (if ((k, p) : Nat × Nat × Nat).1 = k
            then (((k, p) : Nat × Nat × Nat).1, g ((k, p) : Nat × Nat × Nat).2)
            else ((k, p) : Nat × Nat × Nat)) = ((k, g p) : Nat × Nat × Nat) := by simp
      rw [hd, lookup_cons_self, lookup_cons_self]
      rfl
    · have hd : (if ((k, p) : Nat × Nat × Nat).1 = i
            then (((k, p) : Nat × Nat × Nat).1, g ((k, p) : Nat × Nat × Nat).2)
            else ((k, p) : Nat × Nat × Nat)) = ((k, p) : Nat × Nat × Nat) := by simp [hki]
      rw [hd, lookup_cons_ne (Ne.symm hki), lookup_cons_ne (Ne.symm hki), ih]

theorem lookup_map_set_ne {i j : Nat} {g : Nat × Nat → Nat × Nat} (h : j ≠ i) :
    ∀ {st : List (Nat × Nat × Nat)},
      (st.map (fun e => if e.1 = i then (e.1, g e.2) else e)).lookup j =
        st.lookup j := by
  intro st
  induction st with
  | nil => rfl
  | cons e es ih =>
    obtain ⟨k, p⟩ := e
    rw [List.map_cons]
    by_cases hki : k = i
    · subst hki
      have hd : (if ((k, p) : Nat × Nat × Nat).1 = k
            then (((k, p) : Nat × Nat × Nat).1, g ((k, p) : Nat × Nat × Nat).2)
            else ((k, p) : Nat × Nat × Nat)) = ((k, g p) : Nat × Nat × Nat) := by simp
      rw [hd, lookup_cons_ne h, lookup_cons_ne h, ih]
    · have hd : (if ((k, p) : Nat × Nat × Nat).1 = i
            then (((k, p) : Nat × Nat × Nat).1, g ((k, p) : Nat × Nat × Nat).2)
            else ((k, p) : Nat × Nat × Nat)) = ((k, p) : Nat × Nat × Nat) := by simp [hki]
      rw [hd]
      by_cases hkj : k = j
      · subst hkj
        rw [lookup_cons_self, lookup_cons_self]
      · rw [lookup_cons_ne (Ne.symm hkj), lookup_cons_ne (Ne.symm hkj), ih]

theorem lookup_mem :
    ∀ {st : List (Nat × Nat × Nat)} {j : Nat} {p : Nat × Nat},
      st.lookup j = some p → (j, p) ∈ st := by
  intro st
  induction st with
  | nil => intro j p h; simp [List.lookup] at h
  | cons e es ih =>
    intro j p h
    obtain ⟨k, q⟩ := e
    by_cases hkj : k = j
    · subst hkj
      rw [lookup_cons_self] at h
      cases h
      exact List.mem_cons_self _ _
    · rw [lookup_cons_ne (Ne.symm hkj)] at h
      exact List.mem_cons_of_mem _ (ih h)

end BimapModel

namespace BimapModel

/-- Keys of one side's tree in traversal order. -/
def skeys (m : Bimap) (s : Side) : List Nat := (inorder (m.tr s)).map (m.keyF s)

theorem keyOfS_cons_ne {st : List (Nat × Nat × Nat)} {i j : Nat} {p : Nat × Nat}
    (s : Side) (h : j ≠ i) : keyOfS ((i, p) :: st) s j = keyOfS st s j := by
  rw [keyOfS, keyOfS, lookup_cons_ne h]

theorem keyOfS_cons_self_l {st : List (Nat × Nat × Nat)} {i : Nat} {p : Nat × Nat} :
    keyOfS ((i, p) :: st) .l i = p.1 := by
  rw [keyOfS, lookup_cons_self]

theorem keyOfS_cons_self_r {st : List (Nat × Nat × Nat)} {i : Nat} {p : Nat × Nat} :
    keyOfS ((i, p) :: st) .r i = p.2 := by
  rw [keyOfS, lookup_cons_self]

theorem keyOfS_filter_ne {st : List (Nat × Nat × Nat)} {i j : Nat}
    (s : Side) (h : j ≠ i) :
    keyOfS (st.filter (fun e => e.1 != i)) s j = keyOfS st s j := by
  rw [keyOfS, keyOfS, lookup_filter_ne h]

theorem setKey_state (m : Bimap) (s : Side) (id k : Nat) :
    (setKey m s id k).ltree = m.ltree ∧ (setKey m s id k).rtree = m.rtree ∧
    (setKey m s id k).size_ = m.size_ ∧ (setKey m s id k).nextId = m.nextId :=
  ⟨rfl, rfl, rfl, rfl⟩

theorem setKey_keyF_same {m : Bimap} {s : Side} {id k : Nat}
    (h : (m.store.lookup id).isSome = true) :
    (setKey m s id k).keyF s id = k := by
  obtain ⟨p, hp⟩ := Option.isSome_iff_exists.mp h
  rw [Bimap.keyF, setKey, keyOfS]
  simp only
  rw [lookup_map_set_self, hp]
  cases s <;> rfl

theorem setKey_keyF_other {m : Bimap} {s : Side} {id k : Nat} (j : Nat) :
    (setKey m s id k).keyF s.other j = m.keyF s.other j := by
  rw [Bimap.keyF, Bimap.keyF, setKey, keyOfS, keyOfS]
  simp only
  by_cases hj : j = id
  · subst hj
    rw [lookup_map_set_self]
    cases hlk : m.store.lookup j
    · rfl
    · cases s <;> rfl
  · rw [lookup_map_set_ne hj]

theorem setKey_keyF_ne {m : Bimap} {s : Side} {id k : Nat} {j : Nat} (hj : j ≠ id) :
    (setKey m s id k).keyF s j = m.keyF s j := by
  rw [Bimap.keyF, Bimap.keyF, setKey, keyOfS, keyOfS]
  simp only
  rw [lookup_map_set_ne hj]

theorem WF_skeys {m : Bimap} (hWF : WF m) (s : Side) :
    (skeys m s).Pairwise (· < ·) := by
  cases s
  · exact hWF.1
  · exact hWF.2.1

theorem WF_ordd {m : Bimap} (hWF : WF m) (s : Side) :
    Ordd (m.keyF s) (m.tr s) :=
  (ordd_iff_pairwise _ _).mpr (WF_skeys hWF s)

theorem WF_nodup {m : Bimap} (hWF : WF m) (s : Side) :
    (inorder (m.tr s)).Nodup :=
  List.Nodup.of_map _ ((WF_skeys hWF s).imp fun hab => ne_of_lt hab)

theorem WF_perm {m : Bimap} (hWF : WF m) (s : Side) :
    (inorder (m.tr s)).Perm (inorder (m.tr s.other)) := by
  cases s
  · exact hWF.2.2.1
  · exact hWF.2.2.1.symm

theorem WF_lookup {m : Bimap} (hWF : WF m) {s : Side} {id : Nat}
    (h : id ∈ inorder (m.tr s)) : (m.store.lookup id).isSome = true := by
  cases s
  · exact hWF.2.2.2.1 id h
  · exact hWF.2.2.2.1 id ((hWF.2.2.1.mem_iff).mpr h)

theorem WF_id_lt {m : Bimap} (hWF : WF m) {s : Side} {id : Nat}
    (h : id ∈ inorder (m.tr s)) : id < m.nextId := by
  obtain ⟨p, hp⟩ := Option.isSome_iff_exists.mp (WF_lookup hWF h)
  exact hWF.2.2.2.2.1 _ (lookup_mem hp)

theorem WF_inj {m : Bimap} (hWF : WF m) {s : Side} {i j : Nat}
    (hi : i ∈ inorder (m.tr s)) (hj : j ∈ inorder (m.tr s))
    (hk : m.keyF s i = m.keyF s j) : i = j := by
  have hnd : ((inorder (m.tr s)).map (m.keyF s)).Nodup :=
    (WF_skeys hWF s).imp fun hab => ne_of_lt hab
  exact List.inj_on_of_nodup_map hnd hi hj hk

theorem findS_sound {m : Bimap} {s : Side} {k i : Nat}
    (h : findS m s k = some i) :
    i ∈ inorder (m.tr s) ∧ m.keyF s i = k :=
  findT_sound h

theorem findS_eq {m : Bimap} (hWF : WF m) {s : Side} {k i : Nat}
    (hi : i ∈ inorder (m.tr s)) (hk : m.keyF s i = k) :
    findS m s k = some i := by
  have h1 := findT_complete (WF_ordd hWF s) hi hk
  obtain ⟨j, hj⟩ := Option.isSome_iff_exists.mp h1
  obtain ⟨hjm, hjk⟩ := findT_sound hj
  have : j = i := WF_inj hWF hjm hi (hjk.trans hk.symm)
  rw [findS, hj, this]

theorem findS_none {m : Bimap} (hWF : WF m) {s : Side} {k : Nat}
    (h : findS m s k = none) :
    ∀ i ∈ inorder (m.tr s), m.keyF s i ≠ k :=
  findT_none (WF_ordd hWF s) h

theorem findS_of_not_mem {m : Bimap} {s : Side} {k : Nat}
    (h : ∀ i ∈ inorder (m.tr s), m.keyF s i ≠ k) :
    findS m s k = none := by
  cases hf : findS m s k with
  | none => rfl
  | some i =>
    obtain ⟨hm, hk⟩ := findS_sound hf
    exact absurd hk (h i hm)

end BimapModel

namespace BimapModel

theorem tr_l (m : Bimap) : m.tr .l = m.ltree := rfl

theorem tr_r (m : Bimap) : m.tr .r = m.rtree := rfl

theorem insert_no_check_spec {m : Bimap} {lv rv : Nat} (hWF : WF m)
    (hfl : ∀ i ∈ inorder m.ltree, m.keyF .l i ≠ lv)
    (hfr : ∀ i ∈ inorder m.rtree, m.keyF .r i ≠ rv) :
    (insert_no_check m lv rv).2 = some m.nextId ∧
    (inorder (insert_no_check m lv rv).1.ltree).Perm (m.nextId :: inorder m.ltree) ∧
    (inorder (insert_no_check m lv rv).1.rtree).Perm (m.nextId :: inorder m.rtree) ∧
    (insert_no_check m lv rv).1.keyF .l m.nextId = lv ∧
    (insert_no_check m lv rv).1.keyF .r m.nextId = rv ∧
    (insert_no_check m lv rv).1.size_ = m.size_ + 1 ∧
    WF (insert_no_check m lv rv).1 := by
  obtain ⟨h1, h2, h3, h4, h5, h6⟩ := hWF
  have hWF' : WF m := ⟨h1, h2, h3, h4, h5, h6⟩
  have hneL : ∀ i ∈ inorder m.ltree, i ≠ m.nextId := by
    intro i hi
    exact Nat.ne_of_lt (WF_id_lt hWF' (s := .l) hi)
  have hneR : ∀ i ∈ inorder m.rtree, i ≠ m.nextId := by
    intro i hi
    exact Nat.ne_of_lt (WF_id_lt hWF' (s := .r) hi)
  have hkeyL : ∀ i ∈ inorder m.ltree,
      keyOfS ((m.nextId, (lv, rv)) :: m.store) .l i = m.keyF .l i := by
    intro i hi
    exact keyOfS_cons_ne .l (hneL i hi)
  have hkeyR : ∀ i ∈ inorder m.rtree,
      keyOfS ((m.nextId, (lv, rv)) :: m.store) .r i = m.keyF .r i := by
    intro i hi
    exact keyOfS_cons_ne .r (hneR i hi)
  have hmapL : (inorder m.ltree).map (keyOfS ((m.nextId, (lv, rv)) :: m.store) .l)
      = (inorder m.ltree).map (m.keyF .l) := List.map_congr_left hkeyL
  have hmapR : (inorder m.rtree).map (keyOfS ((m.nextId, (lv, rv)) :: m.store) .r)
      = (inorder m.rtree).map (m.keyF .r) := List.map_congr_left hkeyR
  have hoL : Ordd (keyOfS ((m.nextId, (lv, rv)) :: m.store) .l) m.ltree := by
    rw [ordd_iff_pairwise, hmapL]
    exact h1
  have hoR : Ordd (keyOfS ((m.nextId, (lv, rv)) :: m.store) .r) m.rtree := by
    rw [ordd_iff_pairwise, hmapR]
    exact h2
  have hfL : ∀ i ∈ inorder m.ltree,
      keyOfS ((m.nextId, (lv, rv)) :: m.store) .l i ≠
        keyOfS ((m.nextId, (lv, rv)) :: m.store) .l m.nextId := by
    intro i hi
    rw [hkeyL i hi, keyOfS_cons_self_l]
    exact hfl i hi
  have hfR : ∀ i ∈ inorder m.rtree,
      keyOfS ((m.nextId, (lv, rv)) :: m.store) .r i ≠
        keyOfS ((m.nextId, (lv, rv)) :: m.store) .r m.nextId := by
    intro i hi
    rw [hkeyR i hi, keyOfS_cons_self_r]
    exact hfr i hi
  obtain ⟨hoL', hpL⟩ := insertT_spec hoL hfL
  obtain ⟨hoR', hpR⟩ := insertT_spec hoR hfR
  refine ⟨rfl, hpL, hpR, keyOfS_cons_self_l, keyOfS_cons_self_r, rfl, ?_⟩
  refine ⟨?_, ?_, ?_, ?_, ?_, ?_⟩
  · exact (ordd_iff_pairwise _ _).mp hoL'
  · exact (ordd_iff_pairwise _ _).mp hoR'
  · exact hpL.trans ((h3.cons m.nextId).trans hpR.symm)
  · intro j hj
    show (List.lookup j ((m.nextId, (lv, rv)) :: m.store)).isSome = true
    rcases List.mem_cons.mp (hpL.mem_iff.mp hj) with rfl | hj'
    · rw [lookup_cons_self]
      rfl
    · rw [lookup_cons_ne (hneL j hj')]
      exact h4 j hj'
  · intro e he
    rcases List.mem_cons.mp he with rfl | he'
    · exact Nat.lt_succ_self _
    · exact Nat.lt_succ_of_lt (h5 e he')
  · show m.size_ + 1 =
      (inorder (insertT (keyOfS ((m.nextId, (lv, rv)) :: m.store) .l) m.nextId m.ltree).1).length
    rw [hpL.length_eq, List.length_cons, h6]

theorem insertB_conflict {m : Bimap} {lv rv : Nat} (hWF : WF m)
    (h : (∃ i ∈ inorder m.ltree, m.keyF .l i = lv) ∨
         (∃ i ∈ inorder m.rtree, m.keyF .r i = rv)) :
    insertB m lv rv = (m, none) := by
  rw [insertB, if_pos]
  rcases h with ⟨i, hi, hk⟩ | ⟨i, hi, hk⟩
  · rw [findS_eq hWF (s := .l) hi hk]
    simp
  · rw [findS_eq hWF (s := .r) hi hk]
    simp

theorem insertB_success {m : Bimap} {lv rv : Nat}
    (hfl : ∀ i ∈ inorder m.ltree, m.keyF .l i ≠ lv)
    (hfr : ∀ i ∈ inorder m.rtree, m.keyF .r i ≠ rv) :
    insertB m lv rv = insert_no_check m lv rv := by
  rw [insertB, if_neg]
  rw [findS_of_not_mem (s := .l) hfl, findS_of_not_mem (s := .r) hfr]
  simp

theorem insertB_WF {m : Bimap} (lv rv : Nat) (hWF : WF m) :
    WF (insertB m lv rv).1 := by
  rw [insertB]
  split_ifs with h
  · exact hWF
  · rw [Bool.or_eq_true, not_or] at h
    obtain ⟨hL, hR⟩ := h
    have hfl := findS_none hWF (s := .l) (Option.not_isSome_iff_eq_none.mp hL)
    have hfr := findS_none hWF (s := .r) (Option.not_isSome_iff_eq_none.mp hR)
    exact (insert_no_check_spec hWF hfl hfr).2.2.2.2.2.2

theorem eraseIt_end (m : Bimap) (s : Side) : eraseIt m s none = (m, none) := rfl

theorem eraseIt_spec {m : Bimap} {s : Side} {id : Nat} (hWF : WF m)
    (hid : id ∈ inorder (m.tr s)) :
    inorder (eraseIt m s (some id)).1.ltree = (inorder m.ltree).erase id ∧
    inorder (eraseIt m s (some id)).1.rtree = (inorder m.rtree).erase id ∧
    id ∉ inorder (eraseIt m s (some id)).1.ltree ∧
    id ∉ inorder (eraseIt m s (some id)).1.rtree ∧
    (eraseIt m s (some id)).1.size_ + 1 = m.size_ ∧
    (eraseIt m s (some id)).2 = succAfter (inorder (m.tr s)) id ∧
    (∀ j, (eraseIt m s (some id)).2 = some j →
      j ∈ inorder ((eraseIt m s (some id)).1.tr s)) ∧
    (∀ j ∈ inorder (eraseIt m s (some id)).1.ltree,
      (eraseIt m s (some id)).1.keyF .l j = m.keyF .l j) ∧
    (∀ j ∈ inorder (eraseIt m s (some id)).1.rtree,
      (eraseIt m s (some id)).1.keyF .r j = m.keyF .r j) ∧
    WF (eraseIt m s (some id)).1 := by
  have hidL : id ∈ inorder m.ltree := by
    cases s
    · exact hid
    · exact (WF_perm hWF .r).mem_iff.mp hid
  have hidR : id ∈ inorder m.rtree := by
    cases s
    · exact (WF_perm hWF .l).mem_iff.mp hid
    · exact hid
  have hndL : (inorder m.ltree).Nodup := WF_nodup hWF .l
  have hndR : (inorder m.rtree).Nodup := WF_nodup hWF .r
  have hiL : inorder (eraseIt m s (some id)).1.ltree = (inorder m.ltree).erase id :=
    eraseId_inorder hndL
  have hiR : inorder (eraseIt m s (some id)).1.rtree = (inorder m.rtree).erase id :=
    eraseId_inorder hndR
  have hnotL : id ∉ inorder (eraseIt m s (some id)).1.ltree := by
    rw [hiL]
    intro hc
    exact ((hndL.mem_erase_iff).mp hc).1 rfl
  have hnotR : id ∉ inorder (eraseIt m s (some id)).1.rtree := by
    rw [hiR]
    intro hc
    exact ((hndR.mem_erase_iff).mp hc).1 rfl
  have hkeyL : ∀ j ∈ inorder (eraseIt m s (some id)).1.ltree,
      (eraseIt m s (some id)).1.keyF .l j = m.keyF .l j := by
    intro j hj
    rw [hiL] at hj
    exact keyOfS_filter_ne .l ((hndL.mem_erase_iff).mp hj).1
  have hkeyR : ∀ j ∈ inorder (eraseIt m s (some id)).1.rtree,
      (eraseIt m s (some id)).1.keyF .r j = m.keyF .r j := by
    intro j hj
    rw [hiR] at hj
    exact keyOfS_filter_ne .r ((hndR.mem_erase_iff).mp hj).1
  have hsz : m.size_ = (inorder m.ltree).length := hWF.2.2.2.2.2
  have hpos : 0 < m.size_ := by
    rw [hsz]
    exact List.length_pos_of_mem hidL
  have hWF' : WF (eraseIt m s (some id)).1 := by
    refine ⟨?_, ?_, ?_, ?_, ?_, ?_⟩
    · rw [lkeys, List.map_congr_left hkeyL, hiL]
      exact hWF.1.sublist (List.Sublist.map _ (List.erase_sublist _ _))
    · rw [rkeys, List.map_congr_left hkeyR, hiR]
      exact hWF.2.1.sublist (List.Sublist.map _ (List.erase_sublist _ _))
    · rw [hiL, hiR]
      exact hWF.2.2.1.erase id
    · intro j hj
      rw [hiL] at hj
      obtain ⟨hne, hmem⟩ := (hndL.mem_erase_iff).mp hj
      show ((m.store.filter (fun e => e.1 != id)).lookup j).isSome = true
      rw [lookup_filter_ne hne]
      exact hWF.2.2.2.1 j hmem
    · intro e he
      exact hWF.2.2.2.2.1 e (List.mem_of_mem_filter he)
    · show m.size_ - 1 = (inorder (eraseIt m s (some id)).1.ltree).length
      rw [hiL, List.length_erase_of_mem hidL, hsz]
  refine ⟨hiL, hiR, hnotL, hnotR, ?_, rfl, ?_, hkeyL, hkeyR, hWF'⟩
  · show m.size_ - 1 + 1 = m.size_
    omega
  · intro j hj
    have hjm := succAfter_mem hj
    have hjne := succAfter_ne (WF_nodup hWF s) hj
    cases s
    · rw [tr_l, hiL]
      exact (hndL.mem_erase_iff).mpr ⟨hjne, hjm⟩
    · rw [tr_r, hiR]
      exact (hndR.mem_erase_iff).mpr ⟨hjne, hjm⟩

end BimapModel

namespace BimapModel

/-- An iterator on one side is valid when it is `end()` or sits at an
entry that is linked in that side's tree. -/
def validIt (m : Bimap) (s : Side) (it : Option Nat) : Prop :=
  it = none ∨ ∃ id, it = some id ∧ id ∈ inorder (m.tr s)

theorem findS_valid (m : Bimap) (s : Side) (k : Nat) :
    validIt m s (findS m s k) := by
  cases hf : findS m s k with
  | none => exact Or.inl rfl
  | some j => exact Or.inr ⟨j, rfl, (findS_sound hf).1⟩

theorem beginS_valid (m : Bimap) (s : Side) : validIt m s (beginS m s) := by
  cases hb : beginS m s with
  | none => exact Or.inl rfl
  | some j =>
    refine Or.inr ⟨j, rfl, ?_⟩
    rw [beginS] at hb
    exact List.mem_of_mem_head? hb

theorem eraseIt_WF {m : Bimap} {s : Side} {it : Option Nat}
    (hWF : WF m) (hv : validIt m s it) :
    WF (eraseIt m s it).1 ∧ validIt (eraseIt m s it).1 s (eraseIt m s it).2 := by
  rcases hv with rfl | ⟨id, rfl, hid⟩
  · exact ⟨hWF, Or.inl rfl⟩
  · obtain ⟨_, _, _, _, _, _, hval, _, _, hWF'⟩ := eraseIt_spec hWF hid
    refine ⟨hWF', ?_⟩
    cases hres : (eraseIt m s (some id)).2 with
    | none => exact Or.inl rfl
    | some j => exact Or.inr ⟨j, rfl, hval j hres⟩

theorem eraseRangeF_WF :
    ∀ (fuel : Nat) (m : Bimap) (s : Side) (it last : Option Nat),
      WF m → validIt m s it → WF (eraseRangeF fuel m s it last).1 := by
  intro fuel
  induction fuel with
  | zero =>
    intro m s it last hWF _
    exact hWF
  | succ n ih =>
    intro m s it last hWF hv
    rw [eraseRangeF]
    split_ifs with h
    · exact hWF
    · obtain ⟨hWF', hv'⟩ := eraseIt_WF hWF hv
      exact ih _ _ _ _ hWF' hv'

theorem clearB_WF {m : Bimap} (hWF : WF m) : WF (clearB m) :=
  eraseRangeF_WF _ _ _ _ _ hWF (beginS_valid m .l)

theorem eraseKey_WF {m : Bimap} (s : Side) (k : Nat) (hWF : WF m) :
    WF (eraseKey m s k).1 := by
  show WF (eraseIt m s (findS m s k)).1
  exact (eraseIt_WF hWF (findS_valid m s k)).1

theorem WF_empty : WF emptyBimap := by decide

theorem copy_from_WF {dst : Bimap} (src : Bimap) (hWF : WF dst) :
    WF (copy_from dst src) := by
  rw [copy_from]
  have hstep : ∀ (L : List Nat) (acc : Bimap), WF acc →
      WF (L.foldl
        (fun a id => (insertB a (src.keyF .l id) (src.keyF .r id)).1) acc) := by
    intro L
    induction L with
    | nil => intro acc h; exact h
    | cons x xs ih =>
      intro acc h
      exact ih _ (insertB_WF _ _ h)
  exact hstep _ _ (clearB_WF hWF)

theorem copyCtor_WF (src : Bimap) : WF (copyCtor src) :=
  copy_from_WF src WF_empty

theorem at_or_default_WF {m : Bimap} {s : Side} {k : Nat} (hWF : WF m)
    (hben : ¬(findS m s k = none ∧ (findS m s.other 0).isSome = true)) :
    WF (at_or_default m s k).1 := by
  cases hf : findS m s k with
  | some id =>
    rw [at_or_default, hf]
    exact hWF
  | none =>
    cases hg : findS m s.other 0 with
    | some id => exact absurd ⟨hf, by rw [hg]; rfl⟩ hben
    | none =>
      rw [at_or_default, hf]
      simp only [hg]
      cases s
      · have hfl := findS_none hWF (s := .l) hf
        have hfr := findS_none hWF (s := .r) hg
        exact (insert_no_check_spec hWF hfl hfr).2.2.2.2.2.2
      · have hfl := findS_none hWF (s := .l) hg
        have hfr := findS_none hWF (s := .r) hf
        exact (insert_no_check_spec hWF hfl hfr).2.2.2.2.2.2

/-- The public mutating interface of `bimap`, each operation taking its
iterator arguments from `find` on the current map: `insert`,
`erase(iterator)`, `erase(key)`, `erase(first, last)`,
`at_left_or_default` / `at_right_or_default`, copy construction and move
construction. -/
inductive Op where
  | ins : Nat → Nat → Op
  | eraseItL : Nat → Op
  | eraseItR : Nat → Op
  | eraseKeyL : Nat → Op
  | eraseKeyR : Nat → Op
  | eraseRangeL : Nat → Nat → Op
  | eraseRangeR : Nat → Nat → Op
  | atDefL : Nat → Op
  | atDefR : Nat → Op
  | copy : Op
  | mov : Op

/-- One public operation applied to the current map (for `copy` and `mov`
the run continues with the newly constructed map). -/
def applyOp (m : Bimap) : Op → Bimap
  | .ins lv rv => (insertB m lv rv).1
  | .eraseItL k => (eraseIt m .l (findS m .l k)).1
  | .eraseItR k => (eraseIt m .r (findS m .r k)).1
  | .eraseKeyL k => (eraseKey m .l k).1
  | .eraseKeyR k => (eraseKey m .r k).1
  | .eraseRangeL k1 k2 =>
    (eraseRangeF ((inorder m.ltree).length + 1) m .l
      (findS m .l k1) (findS m .l k2)).1
  | .eraseRangeR k1 k2 =>
    (eraseRangeF ((inorder m.rtree).length + 1) m .r
      (findS m .r k1) (findS m .r k2)).1
  | .atDefL k => (at_or_default m .l k).1
  | .atDefR k => (at_or_default m .r k).1
  | .copy => copyCtor m
  | .mov => (moveCtor m).1

/-- An `at_or_default` call is benign when it does not take the in-place
key-repair branch (the queried key absent while the opposite default is
resident); every other operation is always benign. -/
def benignStep (m : Bimap) : Op → Bool
  | .atDefL k => !((findS m .l k == none) && (findS m .r 0).isSome)
  | .atDefR k => !((findS m .r k == none) && (findS m .l 0).isSome)
  | _ => true

def benignRun : Bimap → List Op → Bool
  | _, [] => true
  | m, op :: ops => benignStep m op && benignRun (applyOp m op) ops

/-- Running a sequence of public operations from a default-constructed
bimap. -/
def runOps (ops : List Op) : Bimap := ops.foldl applyOp emptyBimap

theorem applyOp_WF {m : Bimap} (hWF : WF m) {op : Op}
    (hben : benignStep m op = true) : WF (applyOp m op) := by
  cases op with
  | ins lv rv => exact insertB_WF _ _ hWF
  | eraseItL k => exact (eraseIt_WF hWF (findS_valid m .l k)).1
  | eraseItR k => exact (eraseIt_WF hWF (findS_valid m .r k)).1
  | eraseKeyL k => exact eraseKey_WF .l k hWF
  | eraseKeyR k => exact eraseKey_WF .r k hWF
  | eraseRangeL k1 k2 => exact eraseRangeF_WF _ _ _ _ _ hWF (findS_valid m .l k1)
  | eraseRangeR k1 k2 => exact eraseRangeF_WF _ _ _ _ _ hWF (findS_valid m .r k1)
  | atDefL k =>
    refine at_or_default_WF hWF ?_
    intro h
    obtain ⟨hf, hg⟩ := h
    have hg2 : (findS m .r 0).isSome = true := hg
    rw [benignStep, hf, hg2] at hben
    simp at hben
  | atDefR k =>
    refine at_or_default_WF hWF ?_
    intro h
    obtain ⟨hf, hg⟩ := h
    have hg2 : (findS m .l 0).isSome = true := hg
    rw [benignStep, hf, hg2] at hben
    simp at hben
  | copy => exact copyCtor_WF m
  | mov => exact hWF

theorem benignRun_WF :
    ∀ (ops : List Op) (m : Bimap), WF m → benignRun m ops = true →
      WF (ops.foldl applyOp m) := by
  intro ops
  induction ops with
  | nil =>
    intro m hWF _
    exact hWF
  | cons op rest ih =>
    intro m hWF hben
    rw [benignRun, Bool.and_eq_true] at hben
    exact ih _ (applyOp_WF hWF hben.1) hben.2

end BimapModel

namespace Ptr

/-- One `base_tree_element` (src/intrusive_tree.h:6-53): the three
non-owning links of a node. -/
structure PN where
  left : Option Nat := none
  right : Option Nat := none
  parent : Option Nat := none
deriving DecidableEq

/-- The pointer heap: addresses bound to linkage records; later bindings
shadow earlier ones.  An address never bound behaves as a fresh
default-constructed element (all links null). -/
abbrev Heap := List (Nat × PN)

def get (h : Heap) (a : Nat) : PN := (h.lookup a).getD {}

def hset (h : Heap) (a : Nat) (n : PN) : Heap := (a, n) :: h

theorem lookup_cons_ne_pn {st : List (Nat × PN)} {i j : Nat} {p : PN}
    (h : j ≠ i) : ((i, p) :: st).lookup j = st.lookup j := by
  have hb : (j == i) = false := by simp [h]
  simp [List.lookup, hb]

theorem lookup_cons_self_pn {st : List (Nat × PN)} {i : Nat} {p : PN} :
    ((i, p) :: st).lookup i = some p := by
  simp [List.lookup]

theorem get_hset_self (h : Heap) (x : Nat) (n : PN) : get (hset h x n) x = n := by
  rw [get, hset, lookup_cons_self_pn]
  rfl

theorem get_hset_ne {x y : Nat} (h : Heap) (n : PN) (hxy : y ≠ x) :
    get (hset h x n) y = get h y := by
  rw [get, hset, lookup_cons_ne_pn hxy, get]

/-- `base_tree_element::in_tree` (src/intrusive_tree.cpp:22-24). -/
def in_tree (h : Heap) (a : Nat) : Bool :=
  !((get h a).parent == none && (get h a).left == none && (get h a).right == none)

/-- `base_tree_element::link_left` (src/intrusive_tree.cpp:30-37). -/
def link_left (h : Heap) (p l : Option Nat) : Heap :=
  match p with
  | none => h
  | some pa =>
    let h1 := hset h pa { get h pa with left := l }
    match l with
    | none => h1
    | some la => hset h1 la { get h1 la with parent := some pa }

/-- `base_tree_element::link_right` (src/intrusive_tree.cpp:39-46). -/
def link_right (h : Heap) (p r : Option Nat) : Heap :=
  match p with
  | none => h
  | some pa =>
    let h1 := hset h pa { get h pa with right := r }
    match r with
    | none => h1
    | some ra => hset h1 ra { get h1 ra with parent := some pa }

/-- `base_tree_element::is_leaf` (src/intrusive_tree.cpp:88-90). -/
def is_leaf (h : Heap) (a : Nat) : Bool :=
  (get h a).left == none && (get h a).right == none

/-- `base_tree_element::has_one_child` (src/intrusive_tree.cpp:92-95). -/
def has_one_child (h : Heap) (a : Nat) : Bool :=
  ((get h a).left != none && (get h a).right == none) ||
  ((get h a).left == none && (get h a).right != none)

/-- `base_tree_element::is_left_child` (src/intrusive_tree.cpp:97-99).
The C++ dereferences `parent` unconditionally (undefined behaviour when it
is null); inside `unlink` the node always has links, and the model
answers `false` for a parentless node. -/
def is_left_child (h : Heap) (a : Nat) : Bool :=
  match (get h a).parent with
  | some p => (get h p).left == some a
  | none => false

/-- `base_tree_element::get_only_child` (src/intrusive_tree.cpp:101-103). -/
def get_only_child (h : Heap) (a : Nat) : Option Nat :=
  if (get h a).left != none then (get h a).left else (get h a).right

/-- `base_tree_element::link_with_parent` (src/intrusive_tree.cpp:105-111). -/
def link_with_parent (h : Heap) (a : Nat) (n : Option Nat) : Heap :=
  if is_left_child h a then link_left h (get h a).parent n
  else link_right h (get h a).parent n

/-- `base_tree_element::min_in_subtree` (src/intrusive_tree.cpp:55-60),
with fuel bounding the descent. -/
def min_in_subtree : Nat → Heap → Nat → Nat
  | 0, _, a => a
  | fuel + 1, h, a =>
    match (get h a).left with
    | some la => min_in_subtree fuel h la
    | none => a

/-- The ascent loop of `base_tree_element::next`: climb while the current
node is not a left child, then one more step. -/
def ascend : Nat → Heap → Nat → Nat
  | 0, _, a => a
  | fuel + 1, h, a =>
    if is_left_child h a then a
    else
      match (get h a).parent with
      | some p => ascend fuel h p
      | none => a

/-- `base_tree_element::next` (src/intrusive_tree.cpp:75-86). -/
def nextP (fuel : Nat) (h : Heap) (a : Nat) : Option Nat :=
  match (get h a).right with
  | some ra => some (min_in_subtree fuel h ra)
  | none => (get h (ascend fuel h a)).parent

/-- `base_tree_element::unlink` (src/intrusive_tree.cpp:113-129),
translated line by line; the fuel only bounds the recursion depth (on a
well-formed tree one recursive call suffices).  Note that only the
two-children branch clears the node's own three links. -/
def unlink : Nat → Heap → Nat → Heap
  | 0, h, _ => h
  | fuel + 1, h, a =>
    if !(in_tree h a) then h
    else if is_leaf h a || has_one_child h a then
      link_with_parent h a (get_only_child h a)
    else
      match nextP (fuel + 1) h a with
      | some n =>
        let h1 := unlink fuel h n
        let h2 := link_left h1 (some n) (get h1 a).left
        let h3 := link_right h2 (some n) (get h2 a).right
        let h4 := link_with_parent h3 a (some n)
        hset h4 a ⟨none, none, none⟩
      | none => h

end Ptr

namespace Ptr

theorem unlink_detached {h : Heap} {a : Nat} (fuel : Nat)
    (hd : in_tree h a = false) : unlink (fuel + 1) h a = h := by
  rw [unlink, hd]
  rfl

theorem unlink_leaf {h : Heap} {a p : Nat} (fuel : Nat)
    (hp : (get h a).parent = some p) (hpa : p ≠ a)
    (hl : (get h a).left = none) (hr : (get h a).right = none) :
    get (unlink (fuel + 1) h a) a = get h a ∧
    (is_left_child h a = true → (get (unlink (fuel + 1) h a) p).left = none) ∧
    (is_left_child h a = false → (get (unlink (fuel + 1) h a) p).right = none) ∧
    in_tree (unlink (fuel + 1) h a) a = true := by
  have hin : in_tree h a = true := by
    rw [in_tree, hp]
    rfl
  have hleaf : is_leaf h a = true := by
    rw [is_leaf, hl, hr]
    rfl
  have hchild : get_only_child h a = none := by
    rw [get_only_child, hl, hr]
    rfl
  have hstep : unlink (fuel + 1) h a = link_with_parent h a none := by
    rw [unlink, hin, hleaf, hchild]
    rfl
  cases hlc : is_left_child h a with
  | false =>
    have hlwp : link_with_parent h a none = hset h p { get h p with right := none } := by
      rw [link_with_parent, hlc, hp]
      rfl
    refine ⟨?_, ?_, ?_, ?_⟩
    · rw [hstep, hlwp, get_hset_ne _ _ (Ne.symm hpa)]
    · intro hcon
      simp at hcon
    · intro _
      rw [hstep, hlwp, get_hset_self]
    · rw [hstep, hlwp, in_tree, get_hset_ne _ _ (Ne.symm hpa), hp]
      rfl
  | true =>
    have hlwp : link_with_parent h a none = hset h p { get h p with left := none } := by
      rw [link_with_parent, hlc, hp]
      rfl
    refine ⟨?_, ?_, ?_, ?_⟩
    · rw [hstep, hlwp, get_hset_ne _ _ (Ne.symm hpa)]
    · intro _
      rw [hstep, hlwp, get_hset_self]
    · intro hcon
      simp at hcon
    · rw [hstep, hlwp, in_tree, get_hset_ne _ _ (Ne.symm hpa), hp]
      rfl

theorem unlink_one_child {h : Heap} {a p c : Nat} (fuel : Nat)
    (hp : (get h a).parent = some p) (hpa : p ≠ a) (hca : c ≠ a)
    (hl : (get h a).left = some c) (hr : (get h a).right = none) :
    get (unlink (fuel + 1) h a) a = get h a ∧
    (get (unlink (fuel + 1) h a) c).parent = some p ∧
    (is_left_child h a = true → (get (unlink (fuel + 1) h a) p).left = some c) ∧
    (is_left_child h a = false → (get (unlink (fuel + 1) h a) p).right = some c) ∧
    in_tree (unlink (fuel + 1) h a) a = true := by
  have hin : in_tree h a = true := by
    rw [in_tree, hp]
    rfl
  have hleaf : is_leaf h a = false := by
    rw [is_leaf, hl]
    rfl
  have honec : has_one_child h a = true := by
    rw [has_one_child, hl, hr]
    rfl
  have hchild : get_only_child h a = some c := by
    rw [get_only_child, hl]
    rfl
  have hstep : unlink (fuel + 1) h a = link_with_parent h a (some c) := by
    rw [unlink, hin, hleaf, honec, hchild]
    rfl
  cases hlc : is_left_child h a with
  | false =>
    have hlwp : link_with_parent h a (some c) =
        hset (hset h p { get h p with right := some c }) c
          { get (hset h p { get h p with right := some c }) c with parent := some p } := by
      rw [link_with_parent, hlc, hp]
      rfl
    refine ⟨?_, ?_, ?_, ?_, ?_⟩
    · rw [hstep, hlwp, get_hset_ne _ _ (Ne.symm hca), get_hset_ne _ _ (Ne.symm hpa)]
    · rw [hstep, hlwp, get_hset_self]
    · intro hcon
      simp at hcon
    · intro _
      rw [hstep, hlwp]
      by_cases hcp : c = p
      · subst hcp
        rw [get_hset_self]
        show (get (hset h c { get h c with right := some c }) c).right = some c
        rw [get_hset_self]
      · rw [get_hset_ne _ _ (Ne.symm hcp), get_hset_self]
    · rw [hstep, hlwp, in_tree, get_hset_ne _ _ (Ne.symm hca),
        get_hset_ne _ _ (Ne.symm hpa), hp]
      rfl
  | true =>
    have hlwp : link_with_parent h a (some c) =
        hset (hset h p { get h p with left := some c }) c
          { get (hset h p { get h p with left := some c }) c with parent := some p } := by
      rw [link_with_parent, hlc, hp]
      rfl
    refine ⟨?_, ?_, ?_, ?_, ?_⟩
    · rw [hstep, hlwp, get_hset_ne _ _ (Ne.symm hca), get_hset_ne _ _ (Ne.symm hpa)]
    · rw [hstep, hlwp, get_hset_self]
    · intro _
      rw [hstep, hlwp]
      by_cases hcp : c = p
      · subst hcp
        rw [get_hset_self]
        show (get (hset h c { get h c with left := some c }) c).left = some c
        rw [get_hset_self]
      · rw [get_hset_ne _ _ (Ne.symm hcp), get_hset_self]
    · intro hcon
      simp at hcon
    · rw [hstep, hlwp, in_tree, get_hset_ne _ _ (Ne.symm hca),
        get_hset_ne _ _ (Ne.symm hpa), hp]
      rfl

theorem unlink_two {h : Heap} {a cl cr : Nat} (fuel : Nat)
    (hl : (get h a).left = some cl) (hr : (get h a).right = some cr) :
    get (unlink (fuel + 1) h a) a = (⟨none, none, none⟩ : PN) := by
  have hin : in_tree h a = true := by
    rw [in_tree, hl]
    simp
  have hleaf : is_leaf h a = false := by
    rw [is_leaf, hl]
    rfl
  have honec : has_one_child h a = false := by
    rw [has_one_child, hl, hr]
    rfl
  have hnext : nextP (fuel + 1) h a = some (min_in_subtree (fuel + 1) h cr) := by
    rw [nextP, hr]
  rw [unlink, hin, hleaf, honec, hnext]
  exact get_hset_self _ _ _

end Ptr

namespace BimapModel

theorem other_other (s : Side) : s.other.other = s := by
  cases s <;> rfl

/-- The public-operation trace `insert(10, 1); at_left_or_default(5);
at_left_or_default(20)` (the shape of the spec §8 example, with `0`
playing the role of the default right value). -/
def cexOps : List Op := [.ins 10 1, .atDefL 5, .atDefL 20]

/-- The map `{(10, 1), (5, 0)}` right before the repairing call:
`(5, 0)` is the default-valued placeholder, linked as the left child of
`(10, 1)` in the left tree. -/
def repairPre : Bimap := (at_or_default (insertB emptyBimap 10 1).1 .l 5).1

/-- The map `{(1, 10), (2, 20)}` built by two plain inserts. -/
def c3pre : Bimap := (insertB (insertB emptyBimap 1 10).1 2 20).1

/-- A one-entry map `{(1, 2)}`. -/
def c4src : Bimap := (insertB emptyBimap 1 2).1

/-- Claim C1, corrected.  For a well-formed map, a key `k` absent on the
queried side (`find` misses) and the opposite default value `0` found at
entry `id` on the opposite side, `at_or_default` overwrites that entry's
queried-side key with `k` in place (`setKey`) and returns the default
opposite value; both trees, the size and every opposite-side value are
unchanged, no entry is created or destroyed (the repaired entry is the
resident entry `id`, now carrying key `k`), and the number of entries
holding the default opposite value is unchanged (so no second placeholder
appears).  What the original claim wrongly adds — that `find` afterwards
locates the repaired entry — fails, because the entry is not relinked
(see `claim1_counterexample`). -/
theorem claim1_amended (m : Bimap) (s : Side) (k id : Nat)
    (hWF : WF m) (habs : findS m s k = none)
    (hdef : findS m s.other 0 = some id) :
    (at_or_default m s k).1 = setKey m s id k ∧
    (at_or_default m s k).2 = 0 ∧
    (at_or_default m s k).1.ltree = m.ltree ∧
    (at_or_default m s k).1.rtree = m.rtree ∧
    (at_or_default m s k).1.size_ = m.size_ ∧
    (at_or_default m s k).1.keyF s id = k ∧
    id ∈ inorder ((at_or_default m s k).1.tr s) ∧
    (∀ j, (at_or_default m s k).1.keyF s.other j = m.keyF s.other j) ∧
    (∀ j, j ≠ id → (at_or_default m s k).1.keyF s j = m.keyF s j) ∧
    ((inorder ((at_or_default m s k).1.tr s.other)).map
        ((at_or_default m s k).1.keyF s.other)).count 0 =
      ((inorder (m.tr s.other)).map (m.keyF s.other)).count 0 := by
  obtain ⟨hidmem, hidkey⟩ := findS_sound hdef
  have hres : at_or_default m s k =
      (setKey m s id k, (setKey m s id k).keyF s.other id) := by
    rw [at_or_default, habs]
    simp only [hdef]
  have hlook : (m.store.lookup id).isSome = true := WF_lookup hWF hidmem
  have hko : ∀ j, (setKey m s id k).keyF s.other j = m.keyF s.other j :=
    fun j => setKey_keyF_other j
  have htr : ∀ s' : Side, (setKey m s id k).tr s' = m.tr s' := by
    intro s'
    cases s' <;> rfl
  have hmem_s : id ∈ inorder (m.tr s) := by
    have h := (WF_perm hWF s.other).mem_iff.mp hidmem
    rwa [other_other] at h
  refine ⟨by rw [hres], ?_, by rw [hres]; rfl, by rw [hres]; rfl,
    by rw [hres]; rfl, ?_, ?_, ?_, ?_, ?_⟩
  · rw [hres]
    show (setKey m s id k).keyF s.other id = 0
    rw [hko id, hidkey]
  · rw [hres]
    show (setKey m s id k).keyF s id = k
    exact setKey_keyF_same hlook
  · rw [hres]
    show id ∈ inorder ((setKey m s id k).tr s)
    rw [htr s]
    exact hmem_s
  · intro j
    rw [hres]
    exact hko j
  · intro j hj
    rw [hres]
    exact setKey_keyF_ne hj
  · rw [hres]
    show ((inorder ((setKey m s id k).tr s.other)).map
        ((setKey m s id k).keyF s.other)).count 0 = _
    rw [htr s.other, List.map_congr_left (fun j _ => hko j)]

/-- Claim C1's original wording is false on the code: in state
`repairPre` (= `{(10, 1), (5, 0)}`), the call `at_left_or_default(20)`
repairs the placeholder to `(20, 0)` and returns `0`, and key `20` is
then resident on the left side, but `find_left(20)` still returns `end`:
the in-place key overwrite leaves the entry at its old position (left
child of `10`), where the BST descent for `20` cannot reach it. -/
theorem claim1_counterexample :
    findS repairPre .l 20 = none ∧
    (findS repairPre .r 0).isSome = true ∧
    (at_or_default repairPre .l 20).2 = 0 ∧
    (∃ i ∈ inorder (at_or_default repairPre .l 20).1.ltree,
      (at_or_default repairPre .l 20).1.keyF .l i = 20) ∧
    findS (at_or_default repairPre .l 20).1 .l 20 = none := by
  decide

/-- Witness for `claim1_amended` at the concrete repairing call of the
counterexample trace. -/
theorem claim1_witness : (at_or_default repairPre .l 20).2 = 0 :=
  (claim1_amended repairPre .l 20 1 (by decide) (by decide) (by decide)).2.1

/-- Claim C2, corrected.  After any sequence of public operations run from
a fresh bimap — insert, erase by iterator, key or range, copy and move
construction, and `at_left_or_default`/`at_right_or_default` calls that do
not take the in-place key-repair branch — the in-order traversal of the
left tree has strictly increasing left keys, the in-order traversal of the
right tree has strictly increasing right keys, and no two resident keys on
one side are equal.  The original claim, which also covers repairing
`at_*_or_default` calls, is refuted by `claim2_counterexample`. -/
theorem claim2_amended (ops : List Op) (hben : benignRun emptyBimap ops = true) :
    (lkeys (runOps ops)).Pairwise (· < ·) ∧
    (rkeys (runOps ops)).Pairwise (· < ·) ∧
    (lkeys (runOps ops)).Pairwise (· ≠ ·) ∧
    (rkeys (runOps ops)).Pairwise (· ≠ ·) := by
  have hWF := benignRun_WF ops emptyBimap WF_empty hben
  exact ⟨hWF.1, hWF.2.1, hWF.1.imp (fun hab => ne_of_lt hab),
    hWF.2.1.imp (fun hab => ne_of_lt hab)⟩

/-- Claim C2's original wording is false on the code: the public-operation
trace `insert(10, 1); at_left_or_default(5); at_left_or_default(20)`
leaves the left tree with in-order key sequence `[20, 10]`, which is not
strictly increasing — the repair branch of `at_left_or_default` rewrote a
resident key in place without relinking the node. -/
theorem claim2_counterexample :
    runOps cexOps = (at_or_default repairPre .l 20).1 ∧
    lkeys (runOps cexOps) = [20, 10] ∧
    ¬ (lkeys (runOps cexOps)).Pairwise (· < ·) := by
  decide

/-- Witness for `claim2_amended` on a concrete benign trace exercising
insert, a benign `at_left_or_default`, erase by key, copy, move and a
range erase. -/
def wOps : List Op := [.ins 1 2, .atDefL 3, .eraseKeyL 1, .copy, .mov, .eraseRangeL 3 3]

theorem claim2_witness :
    benignRun emptyBimap wOps = true ∧ (lkeys (runOps wOps)).Pairwise (· < ·) :=
  ⟨by decide, (claim2_amended wOps (by decide)).1⟩

/-- Claim C3 is right about the intent and the code is wrong
(`bimap::erase(key)`, src/bimap.h:355-359, returns
`!empty() ? res != end : res == end`): on an empty map an absent key
yields `true` although nothing was removed, and erasing the entry holding
the maximum key of a still non-empty map yields `false` although the entry
was removed (its successor is `end`). -/
theorem claim3_code_bug :
    (eraseKey emptyBimap .l 0).2 = true ∧
    (eraseKey emptyBimap .l 0).1 = emptyBimap ∧
    (eraseKey c3pre .l 2).2 = false ∧
    lkeys (eraseKey c3pre .l 2).1 = [1] ∧
    (eraseKey c3pre .l 2).1.size_ = 1 ∧
    (eraseKey c3pre .l 1).2 = true ∧
    (eraseKey c3pre .l 5).2 = false := by
  decide

/-- Claim C4 is right about the intent and the code is wrong: the move
constructor (src/bimap.h:129-132) and move assignment (src/bimap.h:144-152)
transfer the trees but never reset the source's `size_`.  The moved-from
map reports `empty() == true` with empty traversals on both sides, yet
`size()` still returns the old entry count `1 ≠ 0`. -/
theorem claim4_code_bug :
    emptyB (moveCtor c4src).2 = true ∧
    (moveCtor c4src).2.size_ = 1 ∧
    (inorder (moveCtor c4src).2.ltree).length = 0 ∧
    (inorder (moveCtor c4src).2.rtree).length = 0 ∧
    emptyB (moveAssign emptyBimap c4src).2 = true ∧
    (moveAssign emptyBimap c4src).2.size_ = 1 ∧
    (moveCtor c4src).1.size_ = 1 ∧
    (inorder (moveCtor c4src).1.ltree).length = 1 := by
  decide

/-- Claim C6, confirmed.  For any well-formed map: if the left key is
already resident on the left side or the right key on the right side,
`insert` returns the pair (map unchanged, `end_left`) — no tree is
touched, `size()` is unchanged and nothing is thrown (the model is total);
otherwise one entry with the given keys is created and linked into both
trees (each traversal gains exactly the new id), `size()` grows by one and
the returned iterator sits at the new entry. -/
theorem claim6 (m : Bimap) (lv rv : Nat) (hWF : WF m) :
    ((∃ i ∈ inorder m.ltree, m.keyF .l i = lv) ∨
        (∃ i ∈ inorder m.rtree, m.keyF .r i = rv) →
      insertB m lv rv = (m, none)) ∧
    ((∀ i ∈ inorder m.ltree, m.keyF .l i ≠ lv) →
      (∀ i ∈ inorder m.rtree, m.keyF .r i ≠ rv) →
      (insertB m lv rv).2 = some m.nextId ∧
      WF (insertB m lv rv).1 ∧
      (inorder (insertB m lv rv).1.ltree).Perm (m.nextId :: inorder m.ltree) ∧
      (inorder (insertB m lv rv).1.rtree).Perm (m.nextId :: inorder m.rtree) ∧
      (insertB m lv rv).1.size_ = m.size_ + 1 ∧
      (insertB m lv rv).1.keyF .l m.nextId = lv ∧
      (insertB m lv rv).1.keyF .r m.nextId = rv) := by
  constructor
  · exact fun h => insertB_conflict hWF h
  · intro hfl hfr
    rw [insertB_success hfl hfr]
    obtain ⟨a, b, c, d, e, f, g⟩ := insert_no_check_spec hWF hfl hfr
    exact ⟨a, g, b, c, f, d, e⟩

theorem claim6_witness :
    insertB c3pre 1 99 = (c3pre, none) ∧
    (insertB c3pre 3 30).2 = some c3pre.nextId :=
  ⟨(claim6 c3pre 1 99 (by decide)).1 (by decide),
   ((claim6 c3pre 3 30 (by decide)).2 (by decide) (by decide)).1⟩

/-- Claim C7, confirmed.  For any well-formed map: erasing `end()` is a
no-op returning `end()`; erasing an iterator at a resident entry removes
exactly that entry from both trees (each traversal loses exactly that id),
decrements `size()` by one, and returns the next position on the queried
side (the in-order successor in the pre-state, which is a valid position
of the post-state or `end()`); well-formedness is preserved. -/
theorem claim7 (m : Bimap) (s : Side) (hWF : WF m) :
    eraseIt m s none = (m, none) ∧
    (∀ id, id ∈ inorder (m.tr s) →
      inorder (eraseIt m s (some id)).1.ltree = (inorder m.ltree).erase id ∧
      inorder (eraseIt m s (some id)).1.rtree = (inorder m.rtree).erase id ∧
      id ∉ inorder (eraseIt m s (some id)).1.ltree ∧
      id ∉ inorder (eraseIt m s (some id)).1.rtree ∧
      (eraseIt m s (some id)).1.size_ + 1 = m.size_ ∧
      (eraseIt m s (some id)).2 = succAfter (inorder (m.tr s)) id ∧
      (∀ j, (eraseIt m s (some id)).2 = some j →
        j ∈ inorder ((eraseIt m s (some id)).1.tr s)) ∧
      WF (eraseIt m s (some id)).1) := by
  refine ⟨rfl, ?_⟩
  intro id hid
  obtain ⟨a, b, c, d, e, f, g, _, _, j⟩ := eraseIt_spec hWF hid
  exact ⟨a, b, c, d, e, f, g, j⟩

theorem claim7_witness :
    (eraseIt c3pre .l (some 0)).1.size_ + 1 = c3pre.size_ ∧
    0 ∉ inorder (eraseIt c3pre .l (some 0)).1.ltree :=
  ⟨((claim7 c3pre .l (by decide)).2 0 (by decide)).2.2.2.2.1,
   ((claim7 c3pre .l (by decide)).2 0 (by decide)).2.2.1⟩

/-- Claim C8, confirmed.  For any well-formed map, `at_left` / `at_right`
on a resident key returns the entry's opposite-side value, and on an
absent key signals NotFound by the distinct error outcome (the
`std::out_of_range` throw, modelled `none`, distinguishable from every
normal return `some v`); `at` is a `const` member, so the map is not
modified in either case. -/
theorem claim8 (m : Bimap) (s : Side) (k : Nat) (hWF : WF m) :
    (∀ id, id ∈ inorder (m.tr s) → m.keyF s id = k →
      atS m s k = some (m.keyF s.other id)) ∧
    ((∀ id ∈ inorder (m.tr s), m.keyF s id ≠ k) → atS m s k = none) := by
  constructor
  · intro id hid hk
    rw [atS, findS_eq hWF hid hk]
  · intro h
    rw [atS, findS_of_not_mem h]

theorem claim8_witness :
    atS c3pre .l 1 = some (c3pre.keyF .r 0) ∧ atS c3pre .l 7 = none :=
  ⟨(claim8 c3pre .l 1 (by decide)).1 0 (by decide) (by decide),
   (claim8 c3pre .l 7 (by decide)).2 (by decide)⟩

/-- Claim C9, confirmed.  In any well-formed map, an entry `id` with
stored pair `(lv, rv)` is found from both sides: `find_left(lv)` and
`find_right(rv)` resolve to the same entry; `flip` carries the left
iterator to the same entry's valid position in the right tree, where it
dereferences to `rv` (and symmetrically to `lv`); `flip` is an involution
and maps `end` to the other side's `end`. -/
theorem claim9 (m : Bimap) (id lv rv : Nat) (hWF : WF m)
    (hmem : id ∈ inorder m.ltree) (hstore : m.store.lookup id = some (lv, rv)) :
    findS m .l lv = some id ∧
    findS m .r rv = some id ∧
    id ∈ inorder m.rtree ∧
    flipIt (findS m .l lv) = some id ∧
    derefS m .r (flipIt (findS m .l lv)) = some rv ∧
    derefS m .l (flipIt (findS m .r rv)) = some lv ∧
    (∀ it : Option Nat, flipIt (flipIt it) = it) ∧
    flipIt (none : Option Nat) = none := by
  have hkl : m.keyF .l id = lv := by
    rw [Bimap.keyF, keyOfS, hstore]
  have hkr : m.keyF .r id = rv := by
    rw [Bimap.keyF, keyOfS, hstore]
  have hmemr : id ∈ inorder m.rtree := (hWF.2.2.1).mem_iff.mp hmem
  have hfl : findS m .l lv = some id := findS_eq hWF (s := .l) hmem hkl
  have hfr : findS m .r rv = some id := findS_eq hWF (s := .r) hmemr hkr
  refine ⟨hfl, hfr, hmemr, by rw [hfl]; rfl, ?_, ?_, ?_, rfl⟩
  · rw [hfl]
    show derefS m .r (some id) = some rv
    rw [derefS, hkr]
  · rw [hfr]
    show derefS m .l (some id) = some lv
    rw [derefS, hkl]
  · intro it
    cases it <;> rfl

theorem claim9_witness :
    findS c3pre .l 1 = some 0 ∧ findS c3pre .r 10 = some 0 :=
  ⟨(claim9 c3pre 0 1 10 (by decide) (by decide) (by decide)).1,
   (claim9 c3pre 0 1 10 (by decide) (by decide) (by decide)).2.1⟩

/-- Claim C10, confirmed.  On an empty per-side tree, `intr_tree::insert`
links the new element as the sentinel's left child (the element becomes
the root) but returns the default-constructed null iterator, which is a
different value from the element iterator `as_iterator` would give; and
`bimap::insert_no_check` never relies on that return value — the left
iterator it returns is built by `as_iterator` on the new node (the new
id), whatever the trees looked like. -/
theorem claim10 :
    (∀ (f : Nat → Nat) (x : Nat),
      insertT f x .nil = (.node .nil x .nil, .nullIt)) ∧
    (∀ x : Nat, InsRes.nullIt ≠ as_iterator x) ∧
    (∀ (m : Bimap) (lv rv : Nat), (insert_no_check m lv rv).2 = some m.nextId) := by
  refine ⟨fun f x => rfl, fun x h => InsRes.noConfusion h, fun m lv rv => rfl⟩

end BimapModel

namespace Ptr

theorem unlink_one_child_r {h : Heap} {a p c : Nat} (fuel : Nat)
    (hp : (get h a).parent = some p) (hpa : p ≠ a) (hca : c ≠ a)
    (hl : (get h a).left = none) (hr : (get h a).right = some c) :
    get (unlink (fuel + 1) h a) a = get h a ∧
    (get (unlink (fuel + 1) h a) c).parent = some p ∧
    (is_left_child h a = true → (get (unlink (fuel + 1) h a) p).left = some c) ∧
    (is_left_child h a = false → (get (unlink (fuel + 1) h a) p).right = some c) ∧
    in_tree (unlink (fuel + 1) h a) a = true := by
  have hin : in_tree h a = true := by
    rw [in_tree, hp]
    rfl
  have hleaf : is_leaf h a = false := by
    rw [is_leaf, hl, hr]
    rfl
  have honec : has_one_child h a = true := by
    rw [has_one_child, hl, hr]
    rfl
  have hchild : get_only_child h a = some c := by
    rw [get_only_child, hl, hr]
    rfl
  have hstep : unlink (fuel + 1) h a = link_with_parent h a (some c) := by
    rw [unlink, hin, hleaf, honec, hchild]
    rfl
  cases hlc : is_left_child h a with
  | false =>
    have hlwp : link_with_parent h a (some c) =
        hset (hset h p { get h p with right := some c }) c
          { get (hset h p { get h p with right := some c }) c with parent := some p } := by
      rw [link_with_parent, hlc, hp]
      rfl
    refine ⟨?_, ?_, ?_, ?_, ?_⟩
    · rw [hstep, hlwp, get_hset_ne _ _ (Ne.symm hca), get_hset_ne _ _ (Ne.symm hpa)]
    · rw [hstep, hlwp, get_hset_self]
    · intro hcon
      simp at hcon
    · intro _
      rw [hstep, hlwp]
      by_cases hcp : c = p
      · subst hcp
        rw [get_hset_self]
        show (get (hset h c { get h c with right := some c }) c).right = some c
        rw [get_hset_self]
      · rw [get_hset_ne _ _ (Ne.symm hcp), get_hset_self]
    · rw [hstep, hlwp, in_tree, get_hset_ne _ _ (Ne.symm hca),
        get_hset_ne _ _ (Ne.symm hpa), hp]
      rfl
  | true =>
    have hlwp : link_with_parent h a (some c) =
        hset (hset h p { get h p with left := some c }) c
          { get (hset h p { get h p with left := some c }) c with parent := some p } := by
      rw [link_with_parent, hlc, hp]
      rfl
    refine ⟨?_, ?_, ?_, ?_, ?_⟩
    · rw [hstep, hlwp, get_hset_ne _ _ (Ne.symm hca), get_hset_ne _ _ (Ne.symm hpa)]
    · rw [hstep, hlwp, get_hset_self]
    · intro _
      rw [hstep, hlwp]
      by_cases hcp : c = p
      · subst hcp
        rw [get_hset_self]
        show (get (hset h c { get h c with left := some c }) c).left = some c
        rw [get_hset_self]
      · rw [get_hset_ne _ _ (Ne.symm hcp), get_hset_self]
    · intro hcon
      simp at hcon
    · rw [hstep, hlwp, in_tree, get_hset_ne _ _ (Ne.symm hca),
        get_hset_ne _ _ (Ne.symm hpa), hp]
      rfl

theorem get_link_left_same {h : Heap} {pa y : Nat} {l : Option Nat}
    (hyp : y ≠ pa) (hyc : ∀ la, l = some la → y ≠ la) :
    get (link_left h (some pa) l) y = get h y := by
  cases l with
  | none =>
    show get (hset h pa { get h pa with left := none }) y = get h y
    rw [get_hset_ne _ _ hyp]
  | some la =>
    show get (hset (hset h pa { get h pa with left := some la }) la
      { get (hset h pa { get h pa with left := some la }) la with
        parent := some pa }) y = get h y
    rw [get_hset_ne _ _ (hyc la rfl), get_hset_ne _ _ hyp]

theorem get_link_left_at_parent {h : Heap} {pa : Nat} {l : Option Nat}
    (hne : ∀ la, l = some la → la ≠ pa) :
    get (link_left h (some pa) l) pa = { get h pa with left := l } := by
  cases l with
  | none =>
    show get (hset h pa { get h pa with left := none }) pa = _
    rw [get_hset_self]
  | some la =>
    show get (hset (hset h pa { get h pa with left := some la }) la
      { get (hset h pa { get h pa with left := some la }) la with
        parent := some pa }) pa = _
    rw [get_hset_ne _ _ (Ne.symm (hne la rfl)), get_hset_self]

theorem get_link_left_at_child {h : Heap} {pa la : Nat} (hne : la ≠ pa) :
    get (link_left h (some pa) (some la)) la
      = { get h la with parent := some pa } := by
  show get (hset (hset h pa { get h pa with left := some la }) la
    { get (hset h pa { get h pa with left := some la }) la with
      parent := some pa }) la = _
  rw [get_hset_self, get_hset_ne _ _ hne]

theorem get_link_right_same {h : Heap} {pa y : Nat} {r : Option Nat}
    (hyp : y ≠ pa) (hyc : ∀ ra, r = some ra → y ≠ ra) :
    get (link_right h (some pa) r) y = get h y := by
  cases r with
  | none =>
    show get (hset h pa { get h pa with right := none }) y = get h y
    rw [get_hset_ne _ _ hyp]
  | some ra =>
    show get (hset (hset h pa { get h pa with right := some ra }) ra
      { get (hset h pa { get h pa with right := some ra }) ra with
        parent := some pa }) y = get h y
    rw [get_hset_ne _ _ (hyc ra rfl), get_hset_ne _ _ hyp]

theorem get_link_right_at_parent {h : Heap} {pa : Nat} {r : Option Nat}
    (hne : ∀ ra, r = some ra → ra ≠ pa) :
    get (link_right h (some pa) r) pa = { get h pa with right := r } := by
  cases r with
  | none =>
    show get (hset h pa { get h pa with right := none }) pa = _
    rw [get_hset_self]
  | some ra =>
    show get (hset (hset h pa { get h pa with right := some ra }) ra
      { get (hset h pa { get h pa with right := some ra }) ra with
        parent := some pa }) pa = _
    rw [get_hset_ne _ _ (Ne.symm (hne ra rfl)), get_hset_self]

theorem get_link_right_at_child {h : Heap} {pa ra : Nat} (hne : ra ≠ pa) :
    get (link_right h (some pa) (some ra)) ra
      = { get h ra with parent := some pa } := by
  show get (hset (hset h pa { get h pa with right := some ra }) ra
    { get (hset h pa { get h pa with right := some ra }) ra with
      parent := some pa }) ra = _
  rw [get_hset_self, get_hset_ne _ _ hne]

theorem unlink_two_step {h : Heap} {a n : Nat} (fuel : Nat)
    (hin : in_tree h a = true) (hleaf : is_leaf h a = false)
    (honec : has_one_child h a = false)
    (hnext : nextP (fuel + 1 + 1) h a = some n) :
    unlink (fuel + 1 + 1) h a =
      hset
        (link_with_parent
          (link_right
            (link_left (unlink (fuel + 1) h n) (some n)
              (get (unlink (fuel + 1) h n) a).left)
            (some n)
            (get (link_left (unlink (fuel + 1) h n) (some n)
              (get (unlink (fuel + 1) h n) a).left) a).right)
          a (some n))
        a ⟨none, none, none⟩ := by
  rw [unlink, hin, hleaf, honec, hnext]
  rfl

theorem unlink_two_succ {h : Heap} {a p cl cr : Nat} {cro : Option Nat} (fuel : Nat)
    (hp : (get h a).parent = some p) (hl : (get h a).left = some cl)
    (hr : (get h a).right = some cr)
    (hsl : (get h cr).left = none) (hsp : (get h cr).parent = some a)
    (hsr : (get h cr).right = cro)
    (dpa : p ≠ a) (dcla : cl ≠ a) (dcra : cr ≠ a) (dclcr : cl ≠ cr)
    (dpcl : p ≠ cl) (dpcr : p ≠ cr)
    (hw : ∀ w, cro = some w → w ≠ a ∧ w ≠ cl ∧ w ≠ cr ∧ w ≠ p) :
    get (unlink (fuel + 1 + 1) h a) a = (⟨none, none, none⟩ : PN) ∧
    get (unlink (fuel + 1 + 1) h a) cr = (⟨some cl, cro, some p⟩ : PN) ∧
    (get (unlink (fuel + 1 + 1) h a) cl).parent = some cr ∧
    (is_left_child h a = true → (get (unlink (fuel + 1 + 1) h a) p).left = some cr) ∧
    (is_left_child h a = false → (get (unlink (fuel + 1 + 1) h a) p).right = some cr) ∧
    (∀ w, cro = some w → (get (unlink (fuel + 1 + 1) h a) w).parent = some cr) := by
  have hinS : in_tree h cr = true := by
    rw [in_tree, hsp]
    rfl
  have hioS : (is_leaf h cr || has_one_child h cr) = true := by
    rw [is_leaf, has_one_child, hsl, hsr]
    cases cro <;> rfl
  have hgocS : get_only_child h cr = cro := by
    rw [get_only_child, hsl, hsr]
    rfl
  have hlcS : is_left_child h cr = false := by
    simp [is_left_child, hsp, hl, dclcr]
  have h1eq : unlink (fuel + 1) h cr = link_right h (some a) cro := by
    rw [unlink, hinS, hioS, hgocS, link_with_parent, hlcS, hsp]
    rfl
  have hin : in_tree h a = true := by
    rw [in_tree, hp]
    rfl
  have hleaf : is_leaf h a = false := by
    rw [is_leaf, hl]
    rfl
  have honec : has_one_child h a = false := by
    rw [has_one_child, hl, hr]
    rfl
  have hnext : nextP (fuel + 1 + 1) h a = some cr := by
    simp only [nextP, hr, min_in_subtree, hsl]
  rw [unlink_two_step fuel hin hleaf honec hnext, h1eq]
  set h1 : Heap := link_right h (some a) cro with eh1
  have f1 : get h1 a = { get h a with right := cro } := by
    rw [eh1]
    exact get_link_right_at_parent (fun w hww => (hw w hww).1)
  have f1l : (get h1 a).left = some cl := by
    rw [f1]
    exact hl
  rw [f1l]
  set h2 : Heap := link_left h1 (some cr) (some cl) with eh2
  have g_a : get h2 a = get h1 a := by
    rw [eh2]
    exact get_link_left_same (Ne.symm dcra)
      (fun la hla => (Option.some.inj hla) ▸ Ne.symm dcla)
  have g_ar : (get h2 a).right = cro := by
    rw [g_a, f1]
  rw [g_ar]
  set h3 : Heap := link_right h2 (some cr) cro with eh3
  have h3a : get h3 a = { get h a with right := cro } := by
    rw [eh3, get_link_right_same (Ne.symm dcra) (fun w hww => Ne.symm (hw w hww).1),
      g_a, f1]
  have hpar3 : (get h3 a).parent = some p := by
    rw [h3a]
    exact hp
  have hp3 : get h3 p = get h p := by
    rw [eh3, get_link_right_same dpcr (fun w hww => Ne.symm (hw w hww).2.2.2),
      eh2, get_link_left_same dpcr (fun la hla => (Option.some.inj hla) ▸ dpcl),
      eh1, get_link_right_same dpa (fun w hww => Ne.symm (hw w hww).2.2.2)]
  have hlcW : is_left_child h3 a = is_left_child h a := by
    simp only [is_left_child, hpar3, hp3, hp]
  have h3cr : get h3 cr = { { get h cr with left := some cl } with right := cro } := by
    rw [eh3, get_link_right_at_parent (fun w hww => (hw w hww).2.2.1),
      eh2, get_link_left_at_parent (fun la hla => (Option.some.inj hla) ▸ dclcr),
      eh1, get_link_right_same dcra (fun w hww => Ne.symm (hw w hww).2.2.1)]
  have h3cl : get h3 cl = { get h1 cl with parent := some cr } := by
    rw [eh3, get_link_right_same dclcr (fun w hww => Ne.symm (hw w hww).2.1),
      eh2, get_link_left_at_child dclcr]
  cases hlc : is_left_child h a with
  | false =>
    have hlc3 : is_left_child h3 a = false := by
      rw [hlcW, hlc]
    have hifeq : link_with_parent h3 a (some cr) = link_right h3 (some p) (some cr) := by
      rw [link_with_parent, hlc3, hpar3]
      rfl
    rw [hifeq]
    refine ⟨?_, ?_, ?_, ?_, ?_, ?_⟩
    · exact get_hset_self _ _ _
    · rw [get_hset_ne _ _ dcra, get_link_right_at_child (Ne.symm dpcr), h3cr]
    · rw [get_hset_ne _ _ dcla,
        get_link_right_same (Ne.symm dpcl)
          (fun ra hra => (Option.some.inj hra) ▸ dclcr),
        h3cl]
    · intro hcon
      simp at hcon
    · intro _
      rw [get_hset_ne _ _ dpa,
        get_link_right_at_parent (fun ra hra => (Option.some.inj hra) ▸ Ne.symm dpcr)]
    · intro w hww
      obtain ⟨hwa, hwcl, hwcr, hwp⟩ := hw w hww
      rw [get_hset_ne _ _ hwa,
        get_link_right_same hwp (fun ra hra => (Option.some.inj hra) ▸ hwcr),
        eh3, hww, get_link_right_at_child hwcr]
  | true =>
    have hlc3 : is_left_child h3 a = true := by
      rw [hlcW, hlc]
    have hifeq : link_with_parent h3 a (some cr) = link_left h3 (some p) (some cr) := by
      rw [link_with_parent, hlc3, hpar3]
      rfl
    rw [hifeq]
    refine ⟨?_, ?_, ?_, ?_, ?_, ?_⟩
    · exact get_hset_self _ _ _
    · rw [get_hset_ne _ _ dcra, get_link_left_at_child (Ne.symm dpcr), h3cr]
    · rw [get_hset_ne _ _ dcla,
        get_link_left_same (Ne.symm dpcl)
          (fun la hla => (Option.some.inj hla) ▸ dclcr),
        h3cl]
    · intro _
      rw [get_hset_ne _ _ dpa,
        get_link_left_at_parent (fun la hla => (Option.some.inj hla) ▸ Ne.symm dpcr)]
    · intro hcon
      simp at hcon
    · intro w hww
      obtain ⟨hwa, hwcl, hwcr, hwp⟩ := hw w hww
      rw [get_hset_ne _ _ hwa,
        get_link_left_same hwp (fun la hla => (Option.some.inj hla) ▸ hwcr),
        eh3, hww, get_link_right_at_child hwcr]

theorem unlink_two_succ_deep {h : Heap} {a p cl cr n q : Nat} {nro : Option Nat}
    (fuel : Nat)
    (hp : (get h a).parent = some p) (hl : (get h a).left = some cl)
    (hr : (get h a).right = some cr)
    (hmin : min_in_subtree (fuel + 1 + 1) h cr = n)
    (hnl : (get h n).left = none) (hnr : (get h n).right = nro)
    (hnpq : (get h n).parent = some q) (hqn : (get h q).left = some n)
    (dpa : p ≠ a) (dcla : cl ≠ a) (dcra : cr ≠ a) (dclcr : cl ≠ cr)
    (dpcl : p ≠ cl) (dpcr : p ≠ cr)
    (dna : n ≠ a) (dncl : n ≠ cl) (dncr : n ≠ cr) (dnp : n ≠ p) (dnq : n ≠ q)
    (dqa : q ≠ a) (dqcl : q ≠ cl) (dqp : q ≠ p)
    (hwD : ∀ w, nro = some w →
      w ≠ a ∧ w ≠ cl ∧ w ≠ cr ∧ w ≠ p ∧ w ≠ n ∧ w ≠ q) :
    get (unlink (fuel + 1 + 1) h a) a = (⟨none, none, none⟩ : PN) ∧
    get (unlink (fuel + 1 + 1) h a) n = (⟨some cl, some cr, some p⟩ : PN) ∧
    (get (unlink (fuel + 1 + 1) h a) cl).parent = some n ∧
    (get (unlink (fuel + 1 + 1) h a) cr).parent = some n ∧
    (get (unlink (fuel + 1 + 1) h a) q).left = nro ∧
    (is_left_child h a = true → (get (unlink (fuel + 1 + 1) h a) p).left = some n) ∧
    (is_left_child h a = false → (get (unlink (fuel + 1 + 1) h a) p).right = some n) ∧
    (∀ w, nro = some w → (get (unlink (fuel + 1 + 1) h a) w).parent = some q) := by
  have hinN : in_tree h n = true := by
    rw [in_tree, hnpq]
    rfl
  have hioN : (is_leaf h n || has_one_child h n) = true := by
    rw [is_leaf, has_one_child, hnl, hnr]
    cases nro <;> rfl
  have hgocN : get_only_child h n = nro := by
    rw [get_only_child, hnl, hnr]
    rfl
  have hlcN : is_left_child h n = true := by
    simp [is_left_child, hnpq, hqn]
  have h1eq : unlink (fuel + 1) h n = link_left h (some q) nro := by
    rw [unlink, hinN, hioN, hgocN, link_with_parent, hlcN, hnpq]
    rfl
  have hin : in_tree h a = true := by
    rw [in_tree, hp]
    rfl
  have hleaf : is_leaf h a = false := by
    rw [is_leaf, hl]
    rfl
  have honec : has_one_child h a = false := by
    rw [has_one_child, hl, hr]
    rfl
  have hnext : nextP (fuel + 1 + 1) h a = some n := by
    simp only [nextP, hr, hmin]
  rw [unlink_two_step fuel hin hleaf honec hnext, h1eq]
  set h1 : Heap := link_left h (some q) nro with eh1
  have f1 : get h1 a = get h a := by
    rw [eh1]
    exact get_link_left_same (Ne.symm dqa) (fun w hww => Ne.symm (hwD w hww).1)
  have f1l : (get h1 a).left = some cl := by
    rw [f1]
    exact hl
  rw [f1l]
  set h2 : Heap := link_left h1 (some n) (some cl) with eh2
  have g_a : get h2 a = get h1 a := by
    rw [eh2]
    exact get_link_left_same (Ne.symm dna)
      (fun la hla => (Option.some.inj hla) ▸ Ne.symm dcla)
  have g_ar : (get h2 a).right = some cr := by
    rw [g_a, f1]
    exact hr
  rw [g_ar]
  set h3 : Heap := link_right h2 (some n) (some cr) with eh3
  have h3a : get h3 a = get h a := by
    rw [eh3,
      get_link_right_same (Ne.symm dna)
        (fun ra hra => (Option.some.inj hra) ▸ Ne.symm dcra),
      g_a, f1]
  have hpar3 : (get h3 a).parent = some p := by
    rw [h3a]
    exact hp
  have hp3 : get h3 p = get h p := by
    rw [eh3,
      get_link_right_same (Ne.symm dnp)
        (fun ra hra => (Option.some.inj hra) ▸ dpcr),
      eh2,
      get_link_left_same (Ne.symm dnp)
        (fun la hla => (Option.some.inj hla) ▸ dpcl),
      eh1,
      get_link_left_same (Ne.symm dqp)
        (fun w hww => Ne.symm (hwD w hww).2.2.2.1)]
  have hlcW : is_left_child h3 a = is_left_child h a := by
    simp only [is_left_child, hpar3, hp3, hp]
  have h3n : get h3 n =
      { { get h1 n with left := some cl } with right := some cr } := by
    rw [eh3,
      get_link_right_at_parent (fun ra hra => (Option.some.inj hra) ▸ Ne.symm dncr),
      eh2, get_link_left_at_parent (fun la hla => (Option.some.inj hla) ▸ Ne.symm dncl)]
  have h1n : get h1 n = get h n := by
    rw [eh1]
    exact get_link_left_same dnq (fun w hww => Ne.symm (hwD w hww).2.2.2.2.1)
  have h3cl : get h3 cl = { get h1 cl with parent := some n } := by
    rw [eh3,
      get_link_right_same (Ne.symm dncl)
        (fun ra hra => (Option.some.inj hra) ▸ dclcr),
      eh2, get_link_left_at_child (Ne.symm dncl)]
  have h3cr : get h3 cr = { get h2 cr with parent := some n } := by
    rw [eh3, get_link_right_at_child (Ne.symm dncr)]
  have h3q : (get h3 q).left = nro := by
    by_cases hqcr : q = cr
    · rw [eh3, hqcr, get_link_right_at_child (Ne.symm dncr)]
      show (get h2 cr).left = nro
      rw [eh2,
        get_link_left_same (Ne.symm dncr)
          (fun la hla => (Option.some.inj hla) ▸ Ne.symm dclcr),
        eh1, ← hqcr, get_link_left_at_parent (fun w hww => (hwD w hww).2.2.2.2.2)]
    · rw [eh3,
        get_link_right_same (Ne.symm dnq)
          (fun ra hra => (Option.some.inj hra) ▸ hqcr),
        eh2,
        get_link_left_same (Ne.symm dnq)
          (fun la hla => (Option.some.inj hla) ▸ dqcl),
        eh1, get_link_left_at_parent (fun w hww => (hwD w hww).2.2.2.2.2)]
  cases hlc : is_left_child h a with
  | false =>
    have hlc3 : is_left_child h3 a = false := by
      rw [hlcW, hlc]
    have hifeq : link_with_parent h3 a (some n) = link_right h3 (some p) (some n) := by
      rw [link_with_parent, hlc3, hpar3]
      rfl
    rw [hifeq]
    refine ⟨?_, ?_, ?_, ?_, ?_, ?_, ?_, ?_⟩
    · exact get_hset_self _ _ _
    · rw [get_hset_ne _ _ dna, get_link_right_at_child dnp, h3n, h1n]
    · rw [get_hset_ne _ _ dcla,
        get_link_right_same (Ne.symm dpcl)
          (fun ra hra => (Option.some.inj hra) ▸ Ne.symm dncl),
        h3cl]
    · rw [get_hset_ne _ _ dcra,
        get_link_right_same (Ne.symm dpcr)
          (fun ra hra => (Option.some.inj hra) ▸ Ne.symm dncr),
        h3cr]
    · rw [get_hset_ne _ _ dqa,
        get_link_right_same dqp
          (fun ra hra => (Option.some.inj hra) ▸ Ne.symm dnq)]
      exact h3q
    · intro hcon
      simp at hcon
    · intro _
      rw [get_hset_ne _ _ dpa,
        get_link_right_at_parent (fun ra hra => (Option.some.inj hra) ▸ dnp)]
    · intro w hww
      obtain ⟨hwa, hwcl, hwcr, hwp, hwn, hwq⟩ := hwD w hww
      rw [get_hset_ne _ _ hwa,
        get_link_right_same hwp (fun ra hra => (Option.some.inj hra) ▸ hwn),
        eh3,
        get_link_right_same hwn (fun ra hra => (Option.some.inj hra) ▸ hwcr),
        eh2,
        get_link_left_same hwn (fun la hla => (Option.some.inj hla) ▸ hwcl),
        eh1, hww, get_link_left_at_child hwq]
  | true =>
    have hlc3 : is_left_child h3 a = true := by
      rw [hlcW, hlc]
    have hifeq : link_with_parent h3 a (some n) = link_left h3 (some p) (some n) := by
      rw [link_with_parent, hlc3, hpar3]
      rfl
    rw [hifeq]
    refine ⟨?_, ?_, ?_, ?_, ?_, ?_, ?_, ?_⟩
    · exact get_hset_self _ _ _
    · rw [get_hset_ne _ _ dna, get_link_left_at_child dnp, h3n, h1n]
    · rw [get_hset_ne _ _ dcla,
        get_link_left_same (Ne.symm dpcl)
          (fun la hla => (Option.some.inj hla) ▸ Ne.symm dncl),
        h3cl]
    · rw [get_hset_ne _ _ dcra,
        get_link_left_same (Ne.symm dpcr)
          (fun la hla => (Option.some.inj hla) ▸ Ne.symm dncr),
        h3cr]
    · rw [get_hset_ne _ _ dqa,
        get_link_left_same dqp
          (fun la hla => (Option.some.inj hla) ▸ Ne.symm dnq)]
      exact h3q
    · intro _
      rw [get_hset_ne _ _ dpa,
        get_link_left_at_parent (fun la hla => (Option.some.inj hla) ▸ dnp)]
    · intro hcon
      simp at hcon
    · intro w hww
      obtain ⟨hwa, hwcl, hwcr, hwp, hwn, hwq⟩ := hwD w hww
      rw [get_hset_ne _ _ hwa,
        get_link_left_same hwp (fun la hla => (Option.some.inj hla) ▸ hwn),
        eh3,
        get_link_right_same hwn (fun ra hra => (Option.some.inj hra) ▸ hwcr),
        eh2,
        get_link_left_same hwn (fun la hla => (Option.some.inj hla) ▸ hwcl),
        eh1, hww, get_link_left_at_child hwq]


/-- A root-with-leaf-child heap: address 0 (the sentinel-like parent) has
left child 1; node 1 is a leaf. -/
def hLeaf : Heap := [(0, ⟨some 1, none, none⟩), (1, ⟨none, none, some 0⟩)]

/-- Parent 0 with left child 1 (a leaf) and right child 2 (a leaf). -/
def hLeafSib : Heap :=
  [(0, ⟨some 1, some 2, none⟩), (1, ⟨none, none, some 0⟩), (2, ⟨none, none, some 0⟩)]

/-- Node 1 (left child of 0) with one left child 2. -/
def hOne : Heap :=
  [(0, ⟨some 1, none, none⟩), (1, ⟨some 2, none, some 0⟩), (2, ⟨none, none, some 1⟩)]

/-- Node 1 (left child of 0) with two children 2 and 3. -/
def hTwo : Heap :=
  [(0, ⟨some 1, none, none⟩), (1, ⟨some 2, some 3, some 0⟩),
   (2, ⟨none, none, some 1⟩), (3, ⟨none, none, some 1⟩)]

/-- A single never-linked node. -/
def hDetached : Heap := [(7, ⟨none, none, none⟩)]

/-- Node 1 (left child of 0) with two children 2 and 3, where the right
child 3 has its own left child 4: the in-order successor of 1 is the
deeper node 4. -/
def hDeep : Heap :=
  [(0, ⟨some 1, none, none⟩), (1, ⟨some 2, some 3, some 0⟩),
   (2, ⟨none, none, some 1⟩), (3, ⟨some 4, none, some 1⟩),
   (4, ⟨none, none, some 3⟩)]

/-- Claim C5, corrected.  `base_tree_element::unlink` removes the node
from its tree restoring parent/child consistency among the remaining
nodes, but does not always leave the node itself detached.
(1) On a fully-detached node (all three references null) it is a no-op.
(2) Unlinking a leaf clears the parent's corresponding child slot, but
the node's own record — in particular its parent reference — is left
untouched, so the node is *not* fully detached and still reports
`in_tree()`.  (3) Likewise for a one-child node (either orientation):
the only child is re-parented into the node's old slot while the node
keeps its stale references.  (4) A two-children node always ends fully
detached; moreover the splice restores consistency: (5) when the
in-order successor is the node's right child, the successor adopts the
node's left subtree (re-parented to it), keeps its own right subtree,
takes the node's parent, and the parent's child slot names the
successor; (6) when the successor lies deeper (the leftmost node of the
right subtree: a left child with no left child of its own), the
successor's old slot is filled by its right child (re-parented to the
successor's old parent), the successor adopts both of the node's
subtrees (each re-parented to it) and the node's parent, and the
parent's child slot names the successor.  The original claim's
assertions that *every* unlink leaves the node fully detached and that
re-running `unlink` is always a harmless no-op are refuted by
`claim5_counterexample`. -/
theorem claim5_amended :
    (∀ (h : Heap) (a fuel : Nat), in_tree h a = false →
      unlink (fuel + 1) h a = h) ∧
    (∀ (h : Heap) (a p fuel : Nat), (get h a).parent = some p → p ≠ a →
      (get h a).left = none → (get h a).right = none →
      get (unlink (fuel + 1) h a) a = get h a ∧
      in_tree (unlink (fuel + 1) h a) a = true ∧
      (is_left_child h a = true → (get (unlink (fuel + 1) h a) p).left = none) ∧
      (is_left_child h a = false → (get (unlink (fuel + 1) h a) p).right = none)) ∧
    (∀ (h : Heap) (a p c fuel : Nat), (get h a).parent = some p → p ≠ a → c ≠ a →
      (get h a).left = some c → (get h a).right = none →
      get (unlink (fuel + 1) h a) a = get h a ∧
      in_tree (unlink (fuel + 1) h a) a = true ∧
      (get (unlink (fuel + 1) h a) c).parent = some p ∧
      (is_left_child h a = true → (get (unlink (fuel + 1) h a) p).left = some c) ∧
      (is_left_child h a = false → (get (unlink (fuel + 1) h a) p).right = some c)) ∧
    (∀ (h : Heap) (a p c fuel : Nat), (get h a).parent = some p → p ≠ a → c ≠ a →
      (get h a).left = none → (get h a).right = some c →
      get (unlink (fuel + 1) h a) a = get h a ∧
      in_tree (unlink (fuel + 1) h a) a = true ∧
      (get (unlink (fuel + 1) h a) c).parent = some p ∧
      (is_left_child h a = true → (get (unlink (fuel + 1) h a) p).left = some c) ∧
      (is_left_child h a = false → (get (unlink (fuel + 1) h a) p).right = some c)) ∧
    (∀ (h : Heap) (a cl cr fuel : Nat),
      (get h a).left = some cl → (get h a).right = some cr →
      get (unlink (fuel + 1) h a) a = (⟨none, none, none⟩ : PN)) ∧
    (∀ (h : Heap) (a p cl cr : Nat) (cro : Option Nat) (fuel : Nat),
      (get h a).parent = some p → (get h a).left = some cl →
      (get h a).right = some cr →
      (get h cr).left = none → (get h cr).parent = some a →
      (get h cr).right = cro →
      p ≠ a → cl ≠ a → cr ≠ a → cl ≠ cr → p ≠ cl → p ≠ cr →
      (∀ w, cro = some w → w ≠ a ∧ w ≠ cl ∧ w ≠ cr ∧ w ≠ p) →
      get (unlink (fuel + 1 + 1) h a) a = (⟨none, none, none⟩ : PN) ∧
      get (unlink (fuel + 1 + 1) h a) cr = (⟨some cl, cro, some p⟩ : PN) ∧
      (get (unlink (fuel + 1 + 1) h a) cl).parent = some cr ∧
      (is_left_child h a = true →
        (get (unlink (fuel + 1 + 1) h a) p).left = some cr) ∧
      (is_left_child h a = false →
        (get (unlink (fuel + 1 + 1) h a) p).right = some cr) ∧
      (∀ w, cro = some w →
        (get (unlink (fuel + 1 + 1) h a) w).parent = some cr)) ∧
    (∀ (h : Heap) (a p cl cr n q : Nat) (nro : Option Nat) (fuel : Nat),
      (get h a).parent = some p → (get h a).left = some cl →
      (get h a).right = some cr →
      min_in_subtree (fuel + 1 + 1) h cr = n →
      (get h n).left = none → (get h n).right = nro →
      (get h n).parent = some q → (get h q).left = some n →
      p ≠ a → cl ≠ a → cr ≠ a → cl ≠ cr → p ≠ cl → p ≠ cr →
      n ≠ a → n ≠ cl → n ≠ cr → n ≠ p → n ≠ q →
      q ≠ a → q ≠ cl → q ≠ p →
      (∀ w, nro = some w →
        w ≠ a ∧ w ≠ cl ∧ w ≠ cr ∧ w ≠ p ∧ w ≠ n ∧ w ≠ q) →
      get (unlink (fuel + 1 + 1) h a) a = (⟨none, none, none⟩ : PN) ∧
      get (unlink (fuel + 1 + 1) h a) n = (⟨some cl, some cr, some p⟩ : PN) ∧
      (get (unlink (fuel + 1 + 1) h a) cl).parent = some n ∧
      (get (unlink (fuel + 1 + 1) h a) cr).parent = some n ∧
      (get (unlink (fuel + 1 + 1) h a) q).left = nro ∧
      (is_left_child h a = true →
        (get (unlink (fuel + 1 + 1) h a) p).left = some n) ∧
      (is_left_child h a = false →
        (get (unlink (fuel + 1 + 1) h a) p).right = some n) ∧
      (∀ w, nro = some w →
        (get (unlink (fuel + 1 + 1) h a) w).parent = some q)) := by
  refine ⟨?_, ?_, ?_, ?_, ?_, ?_, ?_⟩
  · intro h a fuel hd
    exact unlink_detached fuel hd
  · intro h a p fuel hp hpa hl hr
    obtain ⟨h1, h2, h3, h4⟩ := unlink_leaf fuel hp hpa hl hr
    exact ⟨h1, h4, h2, h3⟩
  · intro h a p c fuel hp hpa hca hl hr
    obtain ⟨h1, h2, h3, h4, h5⟩ := unlink_one_child fuel hp hpa hca hl hr
    exact ⟨h1, h5, h2, h3, h4⟩
  · intro h a p c fuel hp hpa hca hl hr
    obtain ⟨h1, h2, h3, h4, h5⟩ := unlink_one_child_r fuel hp hpa hca hl hr
    exact ⟨h1, h5, h2, h3, h4⟩
  · intro h a cl cr fuel hl hr
    exact unlink_two fuel hl hr
  · intro h a p cl cr cro fuel hp hl hr hsl hsp hsr dpa dcla dcra dclcr dpcl dpcr hw
    exact unlink_two_succ fuel hp hl hr hsl hsp hsr dpa dcla dcra dclcr dpcl dpcr hw
  · intro h a p cl cr n q nro fuel hp hl hr hmin hnl hnr hnpq hqn dpa dcla dcra
      dclcr dpcl dpcr dna dncl dncr dnp dnq dqa dqcl dqp hwD
    exact unlink_two_succ_deep fuel hp hl hr hmin hnl hnr hnpq hqn dpa dcla dcra
      dclcr dpcl dpcr dna dncl dncr dnp dnq dqa dqcl dqp hwD

/-- Claim C5's original wording is false on the code: unlinking the leaf
node 1 from `hLeaf` leaves `1.parent == 0` (not null), so the node is not
fully detached and `in_tree()` still answers true; moreover `unlink` is
not a no-op on such a stale node — in `hLeafSib`, unlinking the already
unlinked leaf 1 a second time clears the stale parent's *right* slot and
thereby disconnects the unrelated sibling 2. -/
theorem claim5_counterexample :
    (get (unlink 5 hLeaf 1) 1).parent = some 0 ∧
    in_tree (unlink 5 hLeaf 1) 1 = true ∧
    (get (unlink 5 hLeafSib 1) 0).right = some 2 ∧
    (get (unlink 5 (unlink 5 hLeafSib 1) 1) 0).right = none := by
  decide

/-- Witness for `claim5_amended` at concrete heaps covering all the
cases: a detached node, a leaf, a one-child node, a two-children node
(detachment), the successor-is-right-child splice on `hTwo`, and the
deep-successor splice on `hDeep`. -/
theorem claim5_witness :
    unlink 3 hDetached 7 = hDetached ∧
    get (unlink 3 hLeaf 1) 1 = get hLeaf 1 ∧
    (get (unlink 3 hOne 1) 2).parent = some 0 ∧
    get (unlink 3 hTwo 1) 1 = (⟨none, none, none⟩ : PN) ∧
    get (unlink 2 hTwo 1) 3 = (⟨some 2, none, some 0⟩ : PN) ∧
    get (unlink 2 hDeep 1) 4 = (⟨some 2, some 3, some 0⟩ : PN) :=
  ⟨claim5_amended.1 hDetached 7 2 (by decide),
   (claim5_amended.2.1 hLeaf 1 0 2 (by decide) (by decide) (by decide) (by decide)).1,
   (claim5_amended.2.2.1 hOne 1 0 2 2 (by decide) (by decide) (by decide)
     (by decide) (by decide)).2.2.1,
   claim5_amended.2.2.2.2.1 hTwo 1 2 3 2 (by decide) (by decide),
   (claim5_amended.2.2.2.2.2.1 hTwo 1 0 2 3 none 0 (by decide) (by decide)
     (by decide) (by decide) (by decide) (by decide) (by decide) (by decide)
     (by decide) (by decide) (by decide) (by decide)
     (fun w hww => Option.noConfusion hww)).2.1,
   (claim5_amended.2.2.2.2.2.2 hDeep 1 0 2 3 4 3 none 0 (by decide) (by decide)
     (by decide) (by decide) (by decide) (by decide) (by decide) (by decide)
     (by decide) (by decide) (by decide) (by decide) (by decide) (by decide)
     (by decide) (by decide) (by decide) (by decide) (by decide) (by decide)
     (by decide) (by decide)
     (fun w hww => Option.noConfusion hww)).2.1⟩

end Ptr
